import Mathlib

/-
Verification development for the `wordfeud-solver` Rust crate.

The Rust sources are shallowly embedded:
- machine integers (`u8`, `u32`) become `Nat`; tile codes stay below 96 and
  scores stay far below `2 ^ 32` on all modelled paths, so wrap-around never
  occurs and no explicit `% 2 ^ w` is needed;
- `Vec` / tinyvec `ArrayVec` become `List`;
- fallible Rust functions returning `Result<_, Error>` become `Except Err _`;
- a Rust panic (out-of-bounds index or slice) is modelled as `none` in an
  outer `Option` layer on the functions where a claim depends on it; on the
  other functions, panicking index expressions are modelled with `getD` and
  the theorems carry hypotheses keeping all indices in range.
-/

set_option maxRecDepth 100000

namespace Wordfeud

instance except_dec_eq {ε α : Type} [DecidableEq ε] [DecidableEq α] :
    DecidableEq (Except ε α)
  | Except.ok a, Except.ok b =>
    if h : a = b then isTrue (by rw [h]) else isFalse (fun hh => h (by injection hh))
  | Except.ok _, Except.error _ => isFalse (fun hh => Except.noConfusion hh)
  | Except.error _, Except.ok _ => isFalse (fun hh => Except.noConfusion hh)
  | Except.error e, Except.error f =>
    if h : e = f then isTrue (by rw [h]) else isFalse (fun hh => h (by injection hh))

/- ---------------------------------------------------------------------
Tile codes (src/lib/src/tiles/codes.rs).
`0` = empty, `1..31` = letter labels, `64` = unassigned blank,
`65..95` = blank assigned to a letter (bit 6 is the wildcard flag).
--------------------------------------------------------------------- -/

/-- Code of the empty cell. -/
def EMPTY : Nat := 0

/-- Code of the unassigned blank tile. -/
def BLANK : Nat := 64

/-- A board cell: either empty or a tile code (Rust `Cell(Option<Tile>)`). -/
abbrev CellM := Option Nat

/-- Rust `Tile::label` / `Letter::label`: `code & LETTER_MASK` with
`LETTER_MASK = 0b11111`, i.e. the low five bits, i.e. `code % 32`. -/
def label (t : Nat) : Nat := t % 32

/-- Rust `Tile::is_wildcard`: `code & IS_WILDCARD != 0` with `IS_WILDCARD = 0x40`. -/
def is_wildcard (t : Nat) : Bool := t &&& 64 != 0

/-- Rust `Tile::wildcard_from_letter`: `(code & LETTER_MASK) | IS_WILDCARD`.
The two operands have disjoint bits, so `|||` is exact. -/
def wildcard_from_letter (wc : Nat) : Nat := (wc % 32) ||| 64

/-- Rust `Letter::is_blank`: `code == BLANK`. -/
def is_blank (l : Nat) : Bool := l == 64

/-- Rust `Tile::from_letter` keeps the letter's code unchanged. -/
def from_letter (l : Nat) : Nat := l

/-- Rust `Cell::new`: code `0` is the empty cell, any other code wraps a tile. -/
def cell_of_code (c : Nat) : CellM := if c = 0 then none else some c

/-- Rust `Item::code` for `Cell`: the wrapped tile's code, or `0` when empty. -/
def cell_code (c : CellM) : Nat := c.getD 0

/-- Rust `Cell::to_letter`: rebuild the cell from `code & LETTER_MASK`,
stripping the wildcard flag (an empty cell stays empty). -/
def cell_to_letter (c : CellM) : CellM := cell_of_code (cell_code c % 32)

/- ---------------------------------------------------------------------
Label sets (src/lib/src/labelset.rs): a 32-bit set of labels, modelled as
a `Nat` bit mask.  `count_ones` becomes `popcount`, and
`zero_highbits n v = n & ((1 <<< v) - 1) = n % 2 ^ v`.
--------------------------------------------------------------------- -/

/-- Number of set bits, computed with a structural fuel bound so that the
kernel can evaluate it (`popcount n` uses fuel `n`, which is always
enough since the argument at least halves each step). -/
def popcount_fuel : Nat → Nat → Nat
  | 0, _ => 0
  | f + 1, n => if n = 0 then 0 else n % 2 + popcount_fuel f (n / 2)

/-- Number of set bits (Rust `u32::count_ones`). -/
def popcount (n : Nat) : Nat := popcount_fuel n n

theorem popcount_fuel_irrel : ∀ (n f f' : Nat), n ≤ f → n ≤ f' →
    popcount_fuel f n = popcount_fuel f' n := by
  intro n
  induction n using Nat.strong_induction_on with
  | _ n ih =>
    intro f f' hf hf'
    cases hn : n with
    | zero =>
      cases f <;> cases f' <;> simp [popcount_fuel]
    | succ m =>
      subst hn
      cases f with
      | zero => omega
      | succ g =>
        cases f' with
        | zero => omega
        | succ g' =>
          simp only [popcount_fuel, if_neg (Nat.succ_ne_zero m)]
          have hhalf : (m + 1) / 2 < m + 1 :=
            Nat.div_lt_self (Nat.succ_pos m) (by norm_num)
          rw [ih ((m + 1) / 2) hhalf g g' (by omega) (by omega)]

/-- Rust `LabelSet::contains`: `self.0 & (1 << v) != 0`. -/
def ls_contains (s l : Nat) : Bool := s.testBit l

/-- Rust `LabelSet::insert` (the returned old-membership flag is unused
by the modelled callers). -/
def ls_insert (s l : Nat) : Nat := s ||| (1 <<< l)

/-- Rust `LabelSet::len`: population count. -/
def ls_len (s : Nat) : Nat := popcount s

/-- Rust `LabelSet::is_empty`. -/
def ls_is_empty (s : Nat) : Bool := ls_len s == 0

/-- Rust `LabelSet::iter`: the set bits in ascending order (`0..32`). -/
def ls_iter (s : Nat) : List Nat := (List.range 32).filter (fun i => ls_contains s i)

/-- Rust `LabelSet::index_of`: position of `l` among the set bits, i.e.
the popcount of the bits strictly below `l`, when bit `l` is set. -/
def ls_index_of (s l : Nat) : Option Nat :=
  if ls_contains s l then some (popcount (s % (1 <<< l))) else none

/- ---------------------------------------------------------------------
The lexicon index (src/lib/src/wordlist.rs).  `nodes` pairs each node's
`first_child` index with the bit set of its child edge labels; `labels`
holds the edge label entering each node; `terminal` marks word ends.
The cached `word_count`, `node_count`, `wordfile` and `codec` fields play
no role in the claims and are omitted (`node_count = nodes.length`).
--------------------------------------------------------------------- -/

structure Wordlist where
  nodes : List (Nat × Nat)
  labels : List Nat
  terminal : List Bool
  all_labels : Nat
deriving DecidableEq

/-- Rust `Wordlist::get`: child of node `i` along edge `l`, located at
`first_child + index_of(child_labels, l)`.  An out-of-range node index
panics in Rust; the model returns `none` there (the well-formedness
hypothesis `wfb` keeps every reachable index in range). -/
def Wordlist.get (wl : Wordlist) (i l : Nat) : Option Nat :=
  match wl.nodes.get? i with
  | none => none
  | some (start, ls) =>
    match ls_index_of ls l with
    | some idx => some (start + idx)
    | none => none

/-- Rust `Wordlist::range_children`: inclusive index range of the children
of node `i`, or `none` for a leaf. -/
def Wordlist.range_children (wl : Wordlist) (i : Nat) : Option (Nat × Nat) :=
  match wl.nodes.get? i with
  | none => none
  | some (start, ls) =>
    match ls_len ls with
    | 0 => none
    | n + 1 => some (start, start + n)

/-- Rust `Wordlist::iter_children`: the `(edge label, child index)` pairs
for node `i`, in array order over the child block. -/
def Wordlist.iter_children (wl : Wordlist) (i : Nat) : List (Nat × Nat) :=
  match wl.range_children i with
  | none => []
  | some (s, e) => (List.range (e + 1 - s)).map (fun k => (wl.labels.getD (s + k) 0, s + k))

/-- The walk step shared by `Wordlist::get` and `Wordlist::is_word`:
follow the labels from node `i`. -/
def Wordlist.walk (wl : Wordlist) : Nat → List Nat → Option Nat
  | i, [] => some i
  | i, c :: rest =>
    match wl.get i c with
    | some j => wl.walk j rest
    | none => none

/-- Rust `Wordlist::is_word`: walk from the root and read the terminal flag.
Rust panics on an out-of-range node; the model answers `false` there,
which agrees with Rust on every input exercised under `wfb`. -/
def Wordlist.is_word (wl : Wordlist) (w : List Nat) : Bool :=
  match wl.walk 0 w with
  | some i => wl.terminal.getD i false
  | none => false

/-- Structural invariant of the flattened trie, established by
`From<TrieVec<Label>> for Wordlist` (spec section 4.2): the stored lists
have one entry per node, every edge label is below 32 (labels pass through
`LabelSet::insert`, which asserts `v < 32`), each child block lies inside
the node array, and the labels stored over a node's child block enumerate
exactly its `child_labels` bit set, so that `iter_children` and `get`
agree. -/
def wfb (wl : Wordlist) : Bool :=
  wl.labels.length == wl.nodes.length &&
  wl.terminal.length == wl.nodes.length &&
  wl.labels.all (fun l => decide (l < 32)) &&
  (List.range wl.nodes.length).all (fun i =>
    match wl.nodes.get? i with
    | none => true
    | some p =>
      decide (p.1 + ls_len p.2 ≤ wl.nodes.length) &&
      (wl.iter_children i).all (fun q => wl.get i q.1 == some q.2))

/- ---------------------------------------------------------------------
The row matcher (src/lib/src/wordlist/matches.rs).  `Matches` is a lazy
iterator over a work deque of `Args`; the model collects its whole output
with a fuel bound (the Rust loop always terminates, and every theorem
about the matcher holds for every fuel).
--------------------------------------------------------------------- -/

/-- One row of cross-constraints: `(legal label set, connected)` per cell. -/
abbrev RowDataM := List (Nat × Bool)

structure Args where
  node : Nat
  pos : Nat
  letters : List Nat
  word : List Nat
  next : Option Nat
  connecting : Bool
  extending : Bool
deriving DecidableEq

/-- The rack loop of `Matches::next` on an empty square: for each rack
index `i` (skipping letters that are not legal here and duplicates of an
earlier rack letter), descend either through every legal child edge (for
a blank) or through the letter's own edge.  `word'` is the popped word
with the pending tile already appended. -/
def expand_letters (wl : Wordlist) (valid : Nat) (connected : Bool) (a : Args)
    (word' : List Nat) : List Args :=
  (List.range a.letters.length).flatMap (fun i =>
    let letter := a.letters.getD i 0
    if !is_blank letter && !ls_contains valid (label letter) then []
    else if (a.letters.take i).contains letter then []
    else if is_blank letter then
      (wl.iter_children a.node).filterMap (fun p =>
        if ls_contains valid p.1 then
          some { node := p.2, pos := a.pos + 1, letters := a.letters.eraseIdx i,
                 word := word', next := some (wildcard_from_letter p.1),
                 connecting := a.connecting || connected, extending := true }
        else none)
    else
      match wl.get a.node (label letter) with
      | some child =>
        [{ node := child, pos := a.pos + 1, letters := a.letters.eraseIdx i,
           word := word', next := some (from_letter letter),
           connecting := a.connecting || connected, extending := true }]
      | none => [])

/-- One popped `Args` of `Matches::next`: returns the children pushed on
the deque and the word emitted, if any.  Mirrors the branch structure of
the Rust loop body: the `pos == len` skip, the occupied-square descent,
and the empty-square rack loop followed by the terminal check. -/
def step (wl : Wordlist) (row : List CellM) (rowdata : RowDataM) (a : Args) :
    List Args × Option (List Nat) :=
  let word' := a.word ++ a.next.toList
  if a.pos = row.length then ([], none)
  else
    match row.getD a.pos none with
    | some tile =>
      (match wl.get a.node (label tile) with
       | some child =>
         ([{ node := child, pos := a.pos + 1, letters := a.letters, word := word',
             next := some tile, connecting := true, extending := a.extending }], none)
       | none => ([], none))
    | none =>
      let vc := rowdata.getD a.pos (0, false)
      let children :=
        if a.pos + 1 < row.length then expand_letters wl vc.1 vc.2 a word' else []
      let emit :=
        if wl.terminal.getD a.node false && a.connecting && a.extending &&
            decide (1 < word'.length) then
          some word'
        else none
      (children, emit)

/-- Drain the `Matches` work deque (pop at the front, push at the back),
collecting every emitted word, with fuel bounding the number of pops. -/
def runMatches (wl : Wordlist) (row : List CellM) (rowdata : RowDataM) :
    Nat → List Args → List (List Nat)
  | 0, _ => []
  | _, [] => []
  | fuel + 1, a :: rest =>
    let s := step wl row rowdata a
    match s.2 with
    | some w => w :: runMatches wl row rowdata fuel (rest ++ s.1)
    | none => runMatches wl row rowdata fuel (rest ++ s.1)

/-- Rust `Wordlist::matches`: seed the deque with the initial `Args`. -/
def Wordlist.matches (wl : Wordlist) (node : Nat) (row : List CellM)
    (rowdata : RowDataM) (pos : Nat) (letters : List Nat) (fuel : Nat) :
    List (List Nat) :=
  runMatches wl row rowdata fuel
    [{ node, pos, letters, word := [], next := none, connecting := false,
       extending := false }]

/- ---------------------------------------------------------------------
Arithmetic facts about `popcount` and `LabelSet` indexing.
--------------------------------------------------------------------- -/

theorem popcount_eq (n : Nat) : popcount n = n % 2 + popcount (n / 2) := by
  cases n with
  | zero => simp [popcount, popcount_fuel]
  | succ m =>
    show popcount_fuel (m + 1) (m + 1) = (m + 1) % 2 + popcount_fuel ((m + 1) / 2) ((m + 1) / 2)
    rw [popcount_fuel, if_neg (Nat.succ_ne_zero m)]
    have hhalf : (m + 1) / 2 < m + 1 := Nat.div_lt_self (Nat.succ_pos m) (by norm_num)
    rw [popcount_fuel_irrel ((m + 1) / 2) m ((m + 1) / 2) (by omega) (le_refl _)]

theorem popcount_split :
    ∀ (l a b : Nat), a < 2 ^ l → popcount (a + 2 ^ l * b) = popcount a + popcount b := by
  intro l
  induction l with
  | zero =>
    intro a b ha
    have ha0 : a = 0 := by
      have h1 : (2 : Nat) ^ 0 = 1 := rfl
      omega
    subst ha0
    have h0 : popcount 0 = 0 := rfl
    simp [h0]
  | succ k ih =>
    intro a b ha
    have h2 : 2 ^ (k + 1) = 2 * 2 ^ k := by ring
    rw [popcount_eq (a + 2 ^ (k + 1) * b), popcount_eq a]
    have hmod : (a + 2 ^ (k + 1) * b) % 2 = a % 2 := by
      rw [h2]
      have : 2 * 2 ^ k * b = 2 * (2 ^ k * b) := by ring
      rw [this]
      omega
    have hdiv : (a + 2 ^ (k + 1) * b) / 2 = a / 2 + 2 ^ k * b := by
      rw [h2]
      have : 2 * 2 ^ k * b = 2 * (2 ^ k * b) := by ring
      rw [this]
      omega
    have ha2 : a / 2 < 2 ^ k := by
      rw [h2] at ha
      omega
    rw [hmod, hdiv, ih (a / 2) b ha2]
    omega

theorem shiftLeft_one_eq (l : Nat) : (1 <<< l) = 2 ^ l := by
  simp [Nat.shiftLeft_eq]

theorem ls_index_lt {s l idx : Nat} (h : ls_index_of s l = some idx) : idx < ls_len s := by
  unfold ls_index_of at h
  split at h
  case isTrue hc =>
    have hidx : popcount (s % (1 <<< l)) = idx := by
      injection h
    rw [shiftLeft_one_eq] at hidx
    have hsplit : popcount s = popcount (s % 2 ^ l) + popcount (s / 2 ^ l) := by
      conv_lhs => rw [← Nat.mod_add_div s (2 ^ l)]
      exact popcount_split l _ _ (Nat.mod_lt _ (Nat.pos_pow_of_pos l (by norm_num)))
    have hbit : s / 2 ^ l % 2 = 1 := by
      have := hc
      rw [ls_contains, Nat.testBit_to_div_mod] at this
      simpa using this
    have hpos : 0 < popcount (s / 2 ^ l) := by
      rw [popcount_eq]
      omega
    rw [ls_len]
    omega
  case isFalse => exact absurd h (by simp)

/- ---------------------------------------------------------------------
Consequences of the trie well-formedness check `wfb`.
--------------------------------------------------------------------- -/

theorem wfb_unfold {wl : Wordlist} (h : wfb wl = true) :
    wl.labels.length = wl.nodes.length ∧
    wl.terminal.length = wl.nodes.length ∧
    (∀ l ∈ wl.labels, l < 32) ∧
    (∀ i < wl.nodes.length,
      ∀ p, wl.nodes.get? i = some p →
        p.1 + ls_len p.2 ≤ wl.nodes.length ∧
        ∀ q ∈ wl.iter_children i, wl.get i q.1 = some q.2) := by
  simp only [wfb, Bool.and_eq_true, beq_iff_eq, List.all_eq_true, decide_eq_true_eq,
    List.mem_range] at h
  obtain ⟨⟨⟨h1, h2⟩, h3⟩, h4⟩ := h
  refine ⟨h1, h2, h3, ?_⟩
  intro i hi p hp
  have := h4 i hi
  rw [hp] at this
  simp only [Bool.and_eq_true, decide_eq_true_eq, List.all_eq_true, beq_iff_eq] at this
  exact this

theorem wf_get_lt {wl : Wordlist} (hwf : wfb wl = true) {i l c : Nat}
    (h : wl.get i l = some c) : c < wl.nodes.length := by
  unfold Wordlist.get at h
  cases hp : wl.nodes.get? i with
  | none => rw [hp] at h; exact absurd h (by simp)
  | some p =>
    rw [hp] at h
    obtain ⟨start, ls⟩ := p
    cases hidx : ls_index_of ls l with
    | none => simp [hidx] at h
    | some idx =>
      simp only [hidx, Option.some.injEq] at h
      have hi : i < wl.nodes.length := by
        by_contra hge
        rw [List.get?_eq_none.mpr (by omega)] at hp
        exact absurd hp (by simp)
      have hblock := ((wfb_unfold hwf).2.2.2 i hi (start, ls) hp).1
      have hlt := ls_index_lt hidx
      simp only at hblock
      omega

theorem wf_children {wl : Wordlist} (hwf : wfb wl = true) {i : Nat}
    (hi : i < wl.nodes.length) :
    ∀ q ∈ wl.iter_children i, wl.get i q.1 = some q.2 := by
  cases hp : wl.nodes.get? i with
  | none =>
    exfalso
    have := List.get?_eq_none.mp hp
    omega
  | some p => exact ((wfb_unfold hwf).2.2.2 i hi p hp).2

theorem wf_iter_label_lt {wl : Wordlist} (hwf : wfb wl = true) {i : Nat}
    {q : Nat × Nat} (hq : q ∈ wl.iter_children i) : q.1 < 32 := by
  unfold Wordlist.iter_children at hq
  cases hr : wl.range_children i with
  | none => rw [hr] at hq; exact absurd hq (by simp)
  | some se =>
    rw [hr] at hq
    simp only [List.mem_map, List.mem_range] at hq
    obtain ⟨k, _, hk⟩ := hq
    have hlab : q.1 = wl.labels.getD (se.1 + k) 0 := by rw [← hk]
    by_cases hin : se.1 + k < wl.labels.length
    · have hmem : wl.labels.getD (se.1 + k) 0 ∈ wl.labels := by
        rw [List.getD_eq_getElem?_getD, List.getElem?_eq_getElem hin]
        simp [List.getElem_mem hin]
      rw [hlab]
      exact (wfb_unfold hwf).2.2.1 _ hmem
    · rw [hlab, List.getD_eq_getElem?_getD, List.getElem?_eq_none (by omega)]
      norm_num

/- ---------------------------------------------------------------------
Walks through the trie.
--------------------------------------------------------------------- -/

theorem walk_append (wl : Wordlist) (xs ys : List Nat) (i : Nat) :
    wl.walk i (xs ++ ys) =
      match wl.walk i xs with
      | some j => wl.walk j ys
      | none => none := by
  induction xs generalizing i with
  | nil => simp [Wordlist.walk]
  | cons c rest ih =>
    simp only [List.cons_append, Wordlist.walk]
    cases h : wl.get i c with
    | none => simp
    | some j => simpa using ih j

/- ---------------------------------------------------------------------
Rack accounting: which rack letter each newly placed tile consumed.
--------------------------------------------------------------------- -/

/-- The rack letter a placed tile came from: a wildcard tile consumed a
blank, a plain tile consumed the letter with its own code. -/
def letter_used (t : Nat) : Nat := if is_wildcard t then BLANK else t

/-- The rack letters consumed by placing `w` starting at `pos`: one per
covered cell that is empty on the row, in placement order. -/
def used_letters_of (row : List CellM) : Nat → List Nat → List Nat
  | _, [] => []
  | pos, t :: rest =>
    (if row.getD pos none = none then [letter_used t] else []) ++
      used_letters_of row (pos + 1) rest

theorem used_letters_append (row : List CellM) (pos : Nat) (w : List Nat) (t : Nat) :
    used_letters_of row pos (w ++ [t]) =
      used_letters_of row pos w ++
        (if row.getD (pos + w.length) none = none then [letter_used t] else []) := by
  induction w generalizing pos with
  | nil => simp [used_letters_of]
  | cons x rest ih =>
    simp only [List.cons_append, used_letters_of]
    rw [show rest.append [t] = rest ++ [t] from rfl, ih (pos + 1)]
    have harith : pos + (x :: rest).length = pos + 1 + rest.length := by
      simp
      omega
    rw [harith, List.append_assoc]

theorem coe_eraseIdx_add (l : List Nat) (i : Nat) (h : i < l.length) :
    (l : Multiset Nat) = ↑(l.eraseIdx i) + {l.getD i 0} := by
  induction l generalizing i with
  | nil => simp at h
  | cons a t ih =>
    cases i with
    | zero =>
      rw [List.eraseIdx_cons_zero, List.getD_cons_zero, ← Multiset.cons_coe, add_comm,
        Multiset.singleton_add]
    | succ j =>
      have hj : j < t.length := by simpa using h
      rw [List.eraseIdx_cons_succ, List.getD_cons_succ, ← Multiset.cons_coe,
        ← Multiset.cons_coe, Multiset.cons_add, ih j hj]

theorem eraseIdx_subset_mem {l : List Nat} {i : Nat} {x : Nat}
    (h : x ∈ l.eraseIdx i) : x ∈ l := by
  induction l generalizing i with
  | nil => simp [List.eraseIdx] at h
  | cons a t ih =>
    cases i with
    | zero =>
      simp only [List.eraseIdx] at h
      exact List.mem_cons_of_mem _ h
    | succ j =>
      simp only [List.eraseIdx, List.mem_cons] at h
      cases h with
      | inl h => exact h ▸ List.mem_cons_self _ _
      | inr h => exact List.mem_cons_of_mem _ (ih h)

/- ---------------------------------------------------------------------
Soundness of the row matcher (claim C1).  The invariant `ArgsInv` holds
for every entry of the `Matches` work deque; `MatchSound` collects the
claimed properties of an emitted word.
--------------------------------------------------------------------- -/

/-- The word carried by a queued `Args`, with the pending tile appended
(`Matches::next` pushes `args.next` onto `args.word` right after popping). -/
def full_word (a : Args) : List Nat := a.word ++ a.next.toList

/-- A letter that can legally sit on a rack: a label `1..31` or a blank
(the codes `Letter::try_from` accepts). -/
def valid_letter (l : Nat) : Prop := (1 ≤ l ∧ l ≤ 31) ∨ l = 64

instance valid_letter_decidable : DecidablePred valid_letter := by
  intro l
  unfold valid_letter
  infer_instance

structure ArgsInv (wl : Wordlist) (row : List CellM) (rowdata : RowDataM)
    (pos0 : Nat) (rack : List Nat) (a : Args) : Prop where
  walk_eq : wl.walk 0 ((full_word a).map label) = some a.node
  node_lt : a.node < wl.nodes.length
  pos_eq : a.pos = pos0 + (full_word a).length
  pos_le : a.pos ≤ row.length
  agree : ∀ j < (full_word a).length, ∀ t,
    row.getD (pos0 + j) none = some t → (full_word a).getD j 0 = t
  rack_eq : (rack : Multiset Nat) =
    ↑a.letters + ↑(used_letters_of row pos0 (full_word a))
  letters_ok : ∀ l ∈ a.letters, valid_letter l
  conn_wit : a.connecting = true → ∃ j < (full_word a).length,
    (row.getD (pos0 + j) none).isSome = true ∨
      (row.getD (pos0 + j) none = none ∧ (rowdata.getD (pos0 + j) (0, false)).2 = true)
  ext_wit : a.extending = true → ∃ j < (full_word a).length,
    row.getD (pos0 + j) none = none

/-- The properties claimed for every word the matcher yields: membership
in the lexicon, fitting the row, drawing newly placed tiles from the rack
(blanks standing for any label), touching a connected or occupied cell,
placing at least one new tile, and length at least two. -/
structure MatchSound (wl : Wordlist) (row : List CellM) (rowdata : RowDataM)
    (pos : Nat) (rack : List Nat) (w : List Nat) : Prop where
  in_lexicon : wl.is_word (w.map label) = true
  fits_edge : pos + w.length ≤ 15
  agrees : ∀ j < w.length, ∀ t, row.getD (pos + j) none = some t → w.getD j 0 = t
  rack_ok : (↑(used_letters_of row pos w) : Multiset Nat) ≤ ↑rack
  touches : ∃ j < w.length, (row.getD (pos + j) none).isSome = true ∨
    (row.getD (pos + j) none = none ∧ (rowdata.getD (pos + j) (0, false)).2 = true)
  places_new : ∃ j < w.length, row.getD (pos + j) none = none
  min_len : 2 ≤ w.length

theorem getD_mem {l : List Nat} {i : Nat} (h : i < l.length) : l.getD i 0 ∈ l := by
  rw [List.getD_eq_getElem?_getD, List.getElem?_eq_getElem h]
  simp [List.getElem_mem h]

theorem label_wildcard {wc : Nat} (h : wc < 32) : label (wildcard_from_letter wc) = wc := by
  interval_cases wc <;> rfl

theorem is_wildcard_wildcard {wc : Nat} (h : wc < 32) :
    is_wildcard (wildcard_from_letter wc) = true := by
  interval_cases wc <;> rfl

theorem not_wildcard_small {l : Nat} (h1 : 1 ≤ l) (h2 : l ≤ 31) : is_wildcard l = false := by
  interval_cases l <;> rfl

/-- The `Args` pushed on the deque when the current partial word is
extended by one tile `t` into node `child`, consuming rack `letters'`. -/
def push_args (a : Args) (child : Nat) (letters' : List Nat) (t : Nat)
    (conn' ext' : Bool) : Args :=
  { node := child, pos := a.pos + 1, letters := letters', word := full_word a,
    next := some t, connecting := conn', extending := ext' }

/-- Generic preservation step: pushing a child that extends the current
partial word by one tile `t` over the cell at `a.pos` keeps the deque
invariant, for suitable new rack, connecting and extending data. -/
theorem child_inv_push {wl : Wordlist} {row : List CellM} {rowdata : RowDataM}
    {pos0 : Nat} {rack : List Nat}
    (hwf : wfb wl = true)
    {a : Args} (hinv : ArgsInv wl row rowdata pos0 rack a)
    (hpos_lt : a.pos < row.length)
    {t child : Nat} (hstep : wl.get a.node (label t) = some child)
    {letters' : List Nat} {conn' ext' : Bool}
    (hletters : ∀ l ∈ letters', valid_letter l)
    (hrack' : (rack : Multiset Nat) =
      ↑letters' + ↑(used_letters_of row pos0 (full_word a ++ [t])))
    (hagree_new : ∀ t', row.getD a.pos none = some t' → t = t')
    (hconn' : conn' = true → a.connecting = true ∨
      (row.getD a.pos none).isSome = true ∨
      (row.getD a.pos none = none ∧ (rowdata.getD a.pos (0, false)).2 = true))
    (hext' : ext' = true → a.extending = true ∨ row.getD a.pos none = none) :
    ArgsInv wl row rowdata pos0 rack (push_args a child letters' t conn' ext') := by
  have hfw : full_word (push_args a child letters' t conn' ext') =
      full_word a ++ [t] := rfl
  have hposfw : a.pos = pos0 + (full_word a).length := hinv.pos_eq
  constructor
  · -- walk_eq
    show wl.walk 0 ((full_word a ++ [t]).map label) = some child
    rw [List.map_append, walk_append, hinv.walk_eq]
    simp [Wordlist.walk, hstep]
  · -- node_lt
    exact wf_get_lt hwf hstep
  · -- pos_eq
    show a.pos + 1 = pos0 + (full_word a ++ [t]).length
    simp only [List.length_append, List.length_cons, List.length_nil]
    omega
  · -- pos_le
    show a.pos + 1 ≤ row.length
    omega
  · -- agree
    show ∀ j < (full_word a ++ [t]).length, ∀ t',
      row.getD (pos0 + j) none = some t' → (full_word a ++ [t]).getD j 0 = t'
    intro j hj t' ht'
    simp only [List.length_append, List.length_cons, List.length_nil] at hj
    by_cases hjlt : j < (full_word a).length
    · rw [List.getD_append _ _ _ _ hjlt]
      exact hinv.agree j hjlt t' ht'
    · have hjeq : j = (full_word a).length := by omega
      subst hjeq
      rw [← hposfw] at ht'
      have := hagree_new t' ht'
      subst this
      rw [List.getD_append_right _ _ _ _ (le_refl _)]
      simp
  · -- rack_eq
    show (rack : Multiset Nat) =
      ↑letters' + ↑(used_letters_of row pos0 (full_word a ++ [t]))
    exact hrack'
  · -- letters_ok
    exact hletters
  · -- conn_wit
    show conn' = true → ∃ j < (full_word a ++ [t]).length,
      (row.getD (pos0 + j) none).isSome = true ∨
        (row.getD (pos0 + j) none = none ∧ (rowdata.getD (pos0 + j) (0, false)).2 = true)
    intro hc
    rcases hconn' hc with hold | hsome | hpair
    · obtain ⟨j, hj, hp⟩ := hinv.conn_wit hold
      refine ⟨j, ?_, hp⟩
      simp only [List.length_append, List.length_cons, List.length_nil]
      omega
    · refine ⟨(full_word a).length, by simp, ?_⟩
      rw [← hposfw]
      exact Or.inl hsome
    · refine ⟨(full_word a).length, by simp, ?_⟩
      rw [← hposfw]
      exact Or.inr hpair
  · -- ext_wit
    show ext' = true → ∃ j < (full_word a ++ [t]).length,
      row.getD (pos0 + j) none = none
    intro hc
    rcases hext' hc with hold | hempty
    · obtain ⟨j, hj, hp⟩ := hinv.ext_wit hold
      refine ⟨j, ?_, hp⟩
      simp only [List.length_append, List.length_cons, List.length_nil]
      omega
    · refine ⟨(full_word a).length, by simp, ?_⟩
      rw [← hposfw]
      exact hempty

/-- Every child built by the rack loop on an empty square satisfies the
deque invariant. -/
theorem expand_letters_inv {wl : Wordlist} {row : List CellM} {rowdata : RowDataM}
    {pos0 : Nat} {rack : List Nat} (hwf : wfb wl = true)
    {a : Args} (hinv : ArgsInv wl row rowdata pos0 rack a)
    (hcell : row.getD a.pos none = none)
    (hlt : a.pos + 1 < row.length) :
    ∀ a' ∈ expand_letters wl (rowdata.getD a.pos (0, false)).1
        (rowdata.getD a.pos (0, false)).2 a (full_word a),
      ArgsInv wl row rowdata pos0 rack a' := by
  intro a' h
  have hposfw : a.pos = pos0 + (full_word a).length := hinv.pos_eq
  have hcell0 : row.getD (pos0 + (full_word a).length) none = none := by
    rw [← hposfw]; exact hcell
  simp only [expand_letters, List.mem_flatMap, List.mem_range] at h
  obtain ⟨i, hi, hmem⟩ := h
  have herase : ∀ l ∈ a.letters.eraseIdx i, valid_letter l := by
    intro l hl
    exact hinv.letters_ok l (eraseIdx_subset_mem hl)
  have hrackbase : (rack : Multiset Nat) =
      (↑(a.letters.eraseIdx i) + {a.letters.getD i 0}) +
        ↑(used_letters_of row pos0 (full_word a)) := by
    rw [← coe_eraseIdx_add _ _ hi]
    exact hinv.rack_eq
  split_ifs at hmem with hskip hdup hblank
  · exact absurd hmem (List.not_mem_nil _)
  · exact absurd hmem (List.not_mem_nil _)
  · -- blank letter: expand through every legal child edge
    rw [List.mem_filterMap] at hmem
    obtain ⟨p, hp, hf⟩ := hmem
    have hwc : p.1 < 32 := wf_iter_label_lt hwf hp
    have hgetp : wl.get a.node p.1 = some p.2 :=
      wf_children hwf hinv.node_lt p hp
    by_cases hcont : ls_contains (rowdata.getD a.pos (0, false)).1 p.1 = true
    · rw [if_pos hcont] at hf
      have ha' : a' = push_args a p.2 (a.letters.eraseIdx i)
          (wildcard_from_letter p.1) (a.connecting || (rowdata.getD a.pos (0, false)).2)
          true := by
        injection hf with hf'
        exact hf'.symm
      subst ha'
      have hblank64 : a.letters.getD i 0 = 64 := by
        simpa [is_blank] using hblank
      refine child_inv_push hwf hinv (by omega) ?_ herase ?_ ?_ ?_ ?_
      · rw [label_wildcard hwc]
        exact hgetp
      · rw [used_letters_append, if_pos hcell0, hrackbase, hblank64]
        have hlu : letter_used (wildcard_from_letter p.1) = 64 := by
          rw [letter_used, is_wildcard_wildcard hwc]
          rfl
        rw [hlu]
        simp only [← Multiset.coe_add]
        simp [Multiset.coe_add]
        abel
      · intro t' ht'
        rw [hcell] at ht'
        exact absurd ht' (by simp)
      · intro hc
        rcases Bool.or_eq_true _ _ |>.mp hc with h1 | h2
        · exact Or.inl h1
        · exact Or.inr (Or.inr ⟨hcell, h2⟩)
      · intro _
        exact Or.inr hcell
    · rw [if_neg hcont] at hf
      exact absurd hf (by simp)
  · -- plain letter
    cases hg : wl.get a.node (label (a.letters.getD i 0)) with
    | none =>
      rw [hg] at hmem
      exact absurd hmem (List.not_mem_nil _)
    | some child =>
      rw [hg] at hmem
      rw [List.mem_singleton] at hmem
      have hvl : valid_letter (a.letters.getD i 0) :=
        hinv.letters_ok _ (getD_mem hi)
      have hnotblank : is_blank (a.letters.getD i 0) = false := by
        cases hb : is_blank (a.letters.getD i 0) with
        | false => rfl
        | true => exact absurd hb hblank
      have hsmall : 1 ≤ a.letters.getD i 0 ∧ a.letters.getD i 0 ≤ 31 := by
        rcases hvl with h31 | h64
        · exact h31
        · exfalso
          rw [is_blank, h64] at hnotblank
          simp at hnotblank
      subst hmem
      refine child_inv_push hwf hinv (by omega) hg herase ?_ ?_ ?_ ?_
      · rw [used_letters_append, if_pos hcell0, hrackbase]
        have hlu : letter_used (a.letters.getD i 0) = a.letters.getD i 0 := by
          rw [letter_used, not_wildcard_small hsmall.1 hsmall.2]
          rfl
        rw [hlu]
        simp only [← Multiset.coe_add]
        simp [Multiset.coe_add]
        abel
      · intro t' ht'
        rw [hcell] at ht'
        exact absurd ht' (by simp)
      · intro hc
        rcases Bool.or_eq_true _ _ |>.mp hc with h1 | h2
        · exact Or.inl h1
        · exact Or.inr (Or.inr ⟨hcell, h2⟩)
      · intro _
        exact Or.inr hcell

/-- Every `Args` pushed by one pop of `Matches::next` satisfies the deque
invariant. -/
theorem step_inv {wl : Wordlist} {row : List CellM} {rowdata : RowDataM}
    {pos0 : Nat} {rack : List Nat} (hwf : wfb wl = true)
    {a a' : Args} (hinv : ArgsInv wl row rowdata pos0 rack a)
    (h : a' ∈ (step wl row rowdata a).1) :
    ArgsInv wl row rowdata pos0 rack a' := by
  rw [step] at h
  by_cases hpos : a.pos = row.length
  · rw [if_pos hpos] at h
    exact absurd h (List.not_mem_nil _)
  · rw [if_neg hpos] at h
    have hposlt : a.pos < row.length := by
      have := hinv.pos_le
      omega
    cases hcell : row.getD a.pos none with
    | some tile =>
      simp only [hcell] at h
      cases hg : wl.get a.node (label tile) with
      | none =>
        simp only [hg] at h
        exact absurd h (List.not_mem_nil _)
      | some child =>
        simp only [hg, List.mem_singleton] at h
        have ha' : a' = push_args a child a.letters tile true a.extending := h
        subst ha'
        have hposfw : a.pos = pos0 + (full_word a).length := hinv.pos_eq
        refine child_inv_push hwf hinv hposlt hg hinv.letters_ok ?_ ?_ ?_ ?_
        · rw [used_letters_append]
          rw [← hposfw, hcell]
          simp only [if_neg (by simp : ¬(some tile = (none : CellM)))]
          simpa using hinv.rack_eq
        · intro t' ht'
          rw [hcell] at ht'
          injection ht'
        · intro _
          refine Or.inr (Or.inl ?_)
          have hcell' : (row[a.pos]?).getD none = some tile := by
            rw [← List.getD_eq_getElem?_getD]
            exact hcell
          simp [hcell']
        · intro hx
          exact Or.inl hx
    | none =>
      simp only [hcell] at h
      by_cases hl : a.pos + 1 < row.length
      · rw [if_pos hl] at h
        exact expand_letters_inv hwf hinv hcell hl a' h
      · rw [if_neg hl] at h
        exact absurd h (List.not_mem_nil _)

/-- The word returned by one pop of `Matches::next` satisfies all the
claimed properties. -/
theorem step_emit {wl : Wordlist} {row : List CellM} {rowdata : RowDataM}
    {pos0 : Nat} {rack : List Nat}
    (hrow : row.length = 16)
    {a : Args} (hinv : ArgsInv wl row rowdata pos0 rack a)
    {w : List Nat} (h : (step wl row rowdata a).2 = some w) :
    MatchSound wl row rowdata pos0 rack w := by
  rw [step] at h
  by_cases hpos : a.pos = row.length
  · rw [if_pos hpos] at h
    exact absurd h (by simp)
  · rw [if_neg hpos] at h
    cases hcell : row.getD a.pos none with
    | some tile =>
      simp only [hcell] at h
      cases hg : wl.get a.node (label tile) with
      | none => simp only [hg] at h; exact absurd h (by simp)
      | some child => simp only [hg] at h; exact absurd h (by simp)
    | none =>
      simp only [hcell] at h
      split_ifs at h with hemit
      · have hw : w = full_word a := by
          injection h with h'
          exact h'.symm
        subst hw
        simp only [Bool.and_eq_true, decide_eq_true_eq] at hemit
        obtain ⟨⟨⟨hterm, hconn⟩, hext⟩, hlen⟩ := hemit
        have hlen' : 1 < (full_word a).length := hlen
        have hposfw : a.pos = pos0 + (full_word a).length := hinv.pos_eq
        have hple : a.pos ≤ row.length := hinv.pos_le
        constructor
        · -- in the lexicon
          rw [Wordlist.is_word, hinv.walk_eq]
          exact hterm
        · -- stays left of the sentinel
          omega
        · exact hinv.agree
        · -- newly placed tiles are drawn from the rack
          rw [hinv.rack_eq]
          exact self_le_add_left _ _
        · exact hinv.conn_wit hconn
        · exact hinv.ext_wit hext
        · omega

/-- Draining the deque only ever emits sound words, for every fuel. -/
theorem runMatches_sound {wl : Wordlist} {row : List CellM} {rowdata : RowDataM}
    {pos0 : Nat} {rack : List Nat} (hwf : wfb wl = true) (hrow : row.length = 16) :
    ∀ (fuel : Nat) (queue : List Args),
      (∀ a ∈ queue, ArgsInv wl row rowdata pos0 rack a) →
      ∀ w ∈ runMatches wl row rowdata fuel queue,
        MatchSound wl row rowdata pos0 rack w := by
  intro fuel
  induction fuel with
  | zero =>
    intro queue _ w hw
    simp [runMatches] at hw
  | succ n ih =>
    intro queue hq w hw
    cases queue with
    | nil => simp [runMatches] at hw
    | cons a rest =>
      have hqa : ArgsInv wl row rowdata pos0 rack a := hq a (List.mem_cons_self _ _)
      have hrest : ∀ x ∈ rest ++ (step wl row rowdata a).1,
          ArgsInv wl row rowdata pos0 rack x := by
        intro x hx
        rcases List.mem_append.mp hx with h1 | h2
        · exact hq x (List.mem_cons_of_mem _ h1)
        · exact step_inv hwf hqa h2
      cases hs : (step wl row rowdata a).2 with
      | some w0 =>
        simp only [runMatches, hs] at hw
        rcases List.mem_cons.mp hw with h1 | h2
        · rw [h1]
          exact step_emit hrow hqa hs
        · exact ih _ hrest w h2
      | none =>
        simp only [runMatches, hs] at hw
        exact ih _ hrest w hw

/-- C1: every word yielded by the row matcher `Wordlist::matches`, run from
the root node on a 16-cell row (15 cells plus the empty right sentinel)
with any rowdata and any rack of at most 7 letters (possibly containing
blanks), (a) is a word of the lexicon, (b) fits the row, agreeing with
every occupied cell it covers and not running past the right edge,
(c) uses, for its newly placed tiles, only letters from the rack as a
multiset with blanks standing for any label, (d) covers at least one cell
marked Connected in rowdata or an occupied cell, (e) places at least one
new tile from the rack, and (f) has length at least 2. -/
theorem C1_matcher_sound (wl : Wordlist) (row : List CellM) (rowdata : RowDataM)
    (pos : Nat) (rack : List Nat) (fuel : Nat)
    (hwf : wfb wl = true) (hroot : 0 < wl.nodes.length)
    (hrow : row.length = 16)
    (hrack : ∀ l ∈ rack, valid_letter l) (hrack7 : rack.length ≤ 7)
    (hpos : pos ≤ row.length) :
    ∀ w ∈ wl.matches 0 row rowdata pos rack fuel,
      MatchSound wl row rowdata pos rack w := by
  intro w hw
  refine runMatches_sound hwf hrow fuel _ ?_ w hw
  intro a ha
  rw [List.mem_singleton] at ha
  subst ha
  constructor
  · rfl
  · exact hroot
  · simp [full_word]
  · exact hpos
  · intro j hj
    simp [full_word] at hj
  · simp [full_word, used_letters_of]
  · exact hrack
  · intro hc
    exact absurd hc (by simp)
  · intro hc
    exact absurd hc (by simp)

/-- The flattened trie for the one-word lexicon `{"ab"}`, exactly as
`From<TrieVec<Label>>` lays it out: root with child block `[1, 1]`,
node 1 (`a`) with child block `[2, 2]`, node 2 (`ab`, terminal, leaf). -/
def wlAB : Wordlist :=
  { nodes := [(1, 2), (2, 4), (0, 0)], labels := [0, 1, 2],
    terminal := [false, false, true], all_labels := 6 }

/-- A fully empty 16-cell row (15 cells plus the sentinel). -/
def row_empty16 : List CellM := List.replicate 16 none

/-- Rowdata that allows labels `{1, 2}` everywhere and marks every cell
connected. -/
def rowdata_conn15 : RowDataM := List.replicate 15 (6, true)

theorem C1_matcher_sound_witness :
    MatchSound wlAB row_empty16 rowdata_conn15 0 [1, 2] [1, 2] :=
  C1_matcher_sound wlAB row_empty16 rowdata_conn15 0 [1, 2] 50 (by decide) (by decide)
    (by decide) (by decide) (by decide) (by decide) [1, 2] (by decide)

/- ---------------------------------------------------------------------
`Wordlist::start_indices` (src/lib/src/wordlist/matches.rs, lines
145-171).  The Rust loop scans right-to-left carrying a distance `d`
(initially `DIM = 16`): a tile resets it to 0, a connected cell to 1, and
it grows by one per step; `dist[i]` additionally becomes `DIM` when the
cell to the left holds a tile.  Cells at `rowdata.len()..16` keep the
initial `DIM`.  The carried value is modelled by the recurrence
`distVal`, evaluated with the structural fuel `rowdata.length - i`.
--------------------------------------------------------------------- -/

def distVal_fuel (row : List CellM) (rowdata : RowDataM) : Nat → Nat → Nat
  | 0, _ => 16
  | f + 1, i =>
    if (row.getD i none).isSome then 0
    else if (rowdata.getD i (0, false)).2 then 1
    else if i + 1 < rowdata.length then distVal_fuel row rowdata f (i + 1) + 1 else 16

/-- The carried distance `d` of the `start_indices` scan, at cell `i`. -/
def distVal (row : List CellM) (rowdata : RowDataM) (i : Nat) : Nat :=
  distVal_fuel row rowdata (rowdata.length - i) i

/-- The final `dist[i]` array entry of `start_indices`. -/
def dist_at (row : List CellM) (rowdata : RowDataM) (i : Nat) : Nat :=
  if i < rowdata.length then
    if 0 < i ∧ (row.getD (i - 1) none).isSome then 16 else distVal row rowdata i
  else 16

/-- Rust `Wordlist::start_indices`: the indices `0..16` whose distance
entry is at most `maxdist`. -/
def start_indices (row : List CellM) (rowdata : RowDataM) (maxdist : Nat) : List Nat :=
  (List.range 16).filter (fun i => dist_at row rowdata i ≤ maxdist)

/-- A connection point in the sense of the spec: an occupied cell, or a
cell marked connected in the rowdata. -/
def conn_point (row : List CellM) (rowdata : RowDataM) (q : Nat) : Prop :=
  (row.getD q none).isSome = true ∨ (rowdata.getD q (0, false)).2 = true

instance conn_point_decidable (row : List CellM) (rowdata : RowDataM) :
    DecidablePred (conn_point row rowdata) := by
  intro q
  unfold conn_point
  infer_instance

/-- Cost of reaching a connection point: 0 for a tile, 1 for a merely
connected cell. -/
def conn_cost (row : List CellM) (q : Nat) : Nat :=
  if (row.getD q none).isSome then 0 else 1

/-- Modelled from the claim's words: `p` is a start position iff the cell
to its left is empty (or `p = 0`) and some connection point at `q ≥ p`
lies within distance `maxdist`, counting `q - p` steps plus the
connection cost. -/
def claim_start (row : List CellM) (rowdata : RowDataM) (maxdist p : Nat) : Prop :=
  (p = 0 ∨ row.getD (p - 1) none = none) ∧
  ∃ q, p ≤ q ∧ q < rowdata.length ∧ conn_point row rowdata q ∧
    (q - p) + conn_cost row q ≤ maxdist

instance claim_start_decidable (row : List CellM) (rowdata : RowDataM)
    (maxdist p : Nat) : Decidable (claim_start row rowdata maxdist p) := by
  unfold claim_start
  have : Decidable (∃ q, p ≤ q ∧ q < rowdata.length ∧ conn_point row rowdata q ∧
      (q - p) + conn_cost row q ≤ maxdist) := by
    apply decidable_of_iff (∃ q < rowdata.length, p ≤ q ∧ conn_point row rowdata q ∧
      (q - p) + conn_cost row q ≤ maxdist)
    constructor
    · rintro ⟨q, h1, h2, h3, h4⟩
      exact ⟨q, h2, h1, h3, h4⟩
    · rintro ⟨q, h1, h2, h3, h4⟩
      exact ⟨q, h2, h1, h3, h4⟩
  exact instDecidableAnd

theorem distVal_unfold (row : List CellM) (rowdata : RowDataM) {i : Nat}
    (hi : i < rowdata.length) :
    distVal row rowdata i =
      if (row.getD i none).isSome then 0
      else if (rowdata.getD i (0, false)).2 then 1
      else if i + 1 < rowdata.length then distVal row rowdata (i + 1) + 1 else 16 := by
  unfold distVal
  rw [show rowdata.length - i = (rowdata.length - (i + 1)) + 1 from by omega]
  rw [distVal_fuel]

theorem distVal_le_iff (row : List CellM) (rowdata : RowDataM) :
    ∀ (k i maxdist : Nat), rowdata.length - i = k → i < rowdata.length →
      maxdist ≤ 15 →
      (distVal row rowdata i ≤ maxdist ↔
        ∃ q, i ≤ q ∧ q < rowdata.length ∧ conn_point row rowdata q ∧
          (q - i) + conn_cost row q ≤ maxdist) := by
  intro k
  induction k with
  | zero =>
    intro i maxdist hk hi
    omega
  | succ n ih =>
    intro i maxdist hk hi hmax
    rw [distVal_unfold row rowdata hi]
    by_cases htile : (row.getD i none).isSome = true
    · rw [if_pos htile]
      constructor
      · intro _
        refine ⟨i, le_refl _, hi, Or.inl htile, ?_⟩
        unfold conn_cost
        rw [if_pos htile]
        omega
      · intro _
        omega
    · rw [if_neg htile]
      by_cases hconn : (rowdata.getD i (0, false)).2 = true
      · rw [if_pos hconn]
        constructor
        · intro h1
          refine ⟨i, le_refl _, hi, Or.inr hconn, ?_⟩
          simp only [conn_cost, if_neg htile]
          omega
        · rintro ⟨q, hq1, hq2, hq3, hq4⟩
          rcases Nat.eq_or_lt_of_le hq1 with rfl | hlt
          · simp only [conn_cost, if_neg htile] at hq4
            omega
          · have : 1 ≤ q - i := by omega
            have : conn_cost row q ≥ 0 := Nat.zero_le _
            omega
      · rw [if_neg hconn]
        by_cases hlast : i + 1 < rowdata.length
        · rw [if_pos hlast]
          have hrec := ih (i + 1) (maxdist - 1) (by omega) hlast (by omega)
          constructor
          · intro h1
            have hm1 : 1 ≤ maxdist := by omega
            have h2 : distVal row rowdata (i + 1) ≤ maxdist - 1 := by omega
            obtain ⟨q, hq1, hq2, hq3, hq4⟩ := hrec.mp h2
            refine ⟨q, by omega, hq2, hq3, by omega⟩
          · rintro ⟨q, hq1, hq2, hq3, hq4⟩
            have hqi : q ≠ i := by
              intro hqeq
              subst hqeq
              rcases hq3 with h | h
              · exact htile h
              · exact hconn h
            have hq1' : i + 1 ≤ q := by omega
            have hcost : conn_cost row q ≤ 1 := by
              unfold conn_cost
              split <;> omega
            have hm1 : 1 ≤ maxdist := by omega
            have h2 : distVal row rowdata (i + 1) ≤ maxdist - 1 :=
              hrec.mpr ⟨q, hq1', hq2, hq3, by omega⟩
            omega
        · rw [if_neg hlast]
          constructor
          · intro h1
            omega
          · rintro ⟨q, hq1, hq2, hq3, hq4⟩
            have hqeq : q = i := by omega
            subst hqeq
            rcases hq3 with h | h
            · exact absurd h htile
            · exact absurd h hconn

/-- C8 (amended): for a 16-cell row, a 15-entry rowdata (one entry per
board column, as the board supplies) and `maxdist ≤ 15`, `start_indices`
returns exactly the positions `p < 15` whose left neighbour is empty (or
`p = 0`) and whose distance to the nearest connection point — 0 on an
occupied cell, 1 on a Connected cell, counting up when scanning
right-to-left — is at most `maxdist`; in particular the sentinel
position 15 is never returned. -/
theorem C8_start_indices (row : List CellM) (rowdata : RowDataM) (maxdist : Nat)
    (hrow : row.length = 16) (hrd : rowdata.length = 15) (hmax : maxdist ≤ 15) :
    ∀ p, p ∈ start_indices row rowdata maxdist ↔
      p < 15 ∧ claim_start row rowdata maxdist p := by
  intro p
  rw [start_indices, List.mem_filter, List.mem_range, decide_eq_true_eq]
  unfold dist_at
  constructor
  · rintro ⟨hp16, hd⟩
    by_cases hplen : p < rowdata.length
    · rw [if_pos hplen] at hd
      by_cases hleft : 0 < p ∧ (row.getD (p - 1) none).isSome
      · rw [if_pos hleft] at hd
        omega
      · rw [if_neg hleft] at hd
        have hex := (distVal_le_iff row rowdata (rowdata.length - p) p maxdist rfl
          hplen hmax).mp hd
        refine ⟨by omega, ?_, hex⟩
        by_cases hp0 : p = 0
        · exact Or.inl hp0
        · right
          cases hcell : row.getD (p - 1) none with
          | none => rfl
          | some t =>
            exfalso
            apply hleft
            refine ⟨by omega, ?_⟩
            rw [hcell]
            rfl
    · rw [if_neg hplen] at hd
      omega
  · rintro ⟨hp15, hleft, hex⟩
    have hplen : p < rowdata.length := by omega
    refine ⟨by omega, ?_⟩
    rw [if_pos hplen]
    have hnotleft : ¬(0 < p ∧ (row.getD (p - 1) none).isSome) := by
      rintro ⟨hp0, hocc⟩
      rcases hleft with h | h
      · omega
      · rw [h] at hocc
        simp at hocc
    rw [if_neg hnotleft]
    exact (distVal_le_iff row rowdata (rowdata.length - p) p maxdist rfl
      hplen hmax).mpr hex

/-- A 15-entry rowdata with no legal letters and nothing connected. -/
def rowdata_empty15 : RowDataM := List.replicate 15 (0, false)

/-- C8 counterexample to the claim as stated: with `maxdist = 16` the
sentinel position 15 is returned by `start_indices` (its distance entry
keeps the initial value `DIM = 16`, which passes the `≤ maxdist` filter),
although the claim says position 15 is never returned. -/
theorem C8_counterexample :
    15 ∈ start_indices row_empty16 rowdata_empty15 16 := by decide

theorem C8_start_indices_witness :
    3 ∈ start_indices row_empty16 rowdata_conn15 7 ↔
      3 < 15 ∧ claim_start row_empty16 rowdata_conn15 7 3 :=
  C8_start_indices row_empty16 rowdata_conn15 7 (by decide) (by decide) (by decide) 3

/- ---------------------------------------------------------------------
The codec (src/lib/src/tiles/codec.rs), for the default code set
(`CodeSet::new(&[])`): `a..z` map to `1..26`, `A..Z` to `65..90`
(`code | BLANK`), `"."` to 0 and `"*"` to 64; `" "` is added to the
encoder only after the decoder table is built, so both `" "` and `"."`
encode to 0 while 0 always decodes to `"."`.  The tokenizer splits a word
into single characters, so tokens are modelled as `Char`.  Encoding fails
with `StringTooLong` past `DIM = 16` tokens and `InvalidToken` on an
unknown token; decoding is partial exactly where Rust would panic on a
missing decoder entry.
--------------------------------------------------------------------- -/

inductive CodecErr where
  | stringTooLong
  | invalidToken (t : Char)
deriving DecidableEq

/-- The encoder entries, in insertion order (all keys are distinct, so
the `HashMap` is faithfully modelled by first-match lookup). -/
def encode_pairs : List (Char × Nat) :=
  ((List.range 26).map (fun i => (Char.ofNat (97 + i), i + 1)) ++
    (List.range 26).map (fun i => (Char.ofNat (65 + i), i + 1 + 64)) ++
    [(Char.ofNat 46, 0), (Char.ofNat 42, 64)]) ++
    [(Char.ofNat 32, 0)]

/-- The decoder table: one entry per encoder entry present before `" "`
is inserted, keyed by the (distinct) codes. -/
def decode_pairs : List (Nat × Char) :=
  ((List.range 26).map (fun i => (Char.ofNat (97 + i), i + 1)) ++
    (List.range 26).map (fun i => (Char.ofNat (65 + i), i + 1 + 64)) ++
    [(Char.ofNat 46, 0), (Char.ofNat 42, 64)]).map (fun p : Char × Nat => (p.2, p.1))

/-- The token-by-token encoding loop of `Codec::encode` (the iterator
`map` collected into `Result<Vec<_>, Error>`: the first failure wins). -/
def encode_tokens : List Char → Except CodecErr (List Nat)
  | [] => Except.ok []
  | c :: t =>
    match List.lookup c encode_pairs with
    | none => Except.error (CodecErr.invalidToken c)
    | some k =>
      match encode_tokens t with
      | Except.ok ks => Except.ok (k :: ks)
      | Except.error e => Except.error e

/-- Rust `Codec::encode`: tokenize (one char per token), fail on more
than 16 tokens, then encode each token. -/
def codec_encode (s : List Char) : Except CodecErr (List Nat) :=
  if 16 < s.length then Except.error CodecErr.stringTooLong
  else encode_tokens s

/-- Rust `Codec::decode`: look each code up in the decoder table; `none`
models the panic on an invalid code. -/
def codec_decode : List Nat → Option (List Char)
  | [] => some []
  | k :: ks =>
    match List.lookup k decode_pairs with
    | none => none
    | some c =>
      match codec_decode ks with
      | some cs => some (c :: cs)
      | none => none

/-- The only normalization of the round trip: `" "` decodes as `"."`. -/
def norm_char (c : Char) : Char := if c = Char.ofNat 32 then Char.ofNat 46 else c

theorem lookup_mem {α β : Type} [BEq α] [LawfulBEq α] {l : List (α × β)} {c : α} {k : β}
    (h : List.lookup c l = some k) : (c, k) ∈ l := by
  induction l with
  | nil => simp [List.lookup] at h
  | cons p t ih =>
    obtain ⟨c', k'⟩ := p
    rw [List.lookup] at h
    cases hc : c == c' with
    | true =>
      simp only [hc] at h
      injection h with h'
      subst h'
      have hceq : c = c' := eq_of_beq hc
      subst hceq
      exact List.mem_cons_self _ _
    | false =>
      simp only [hc] at h
      exact List.mem_cons_of_mem _ (ih h)

theorem encode_decode_entry :
    ∀ p ∈ encode_pairs, List.lookup p.2 decode_pairs = some (norm_char p.1) := by
  decide

theorem encode_tokens_decode {s : List Char} {codes : List Nat}
    (h : encode_tokens s = Except.ok codes) :
    codec_decode codes = some (s.map norm_char) := by
  induction s generalizing codes with
  | nil =>
    rw [encode_tokens] at h
    injection h with h'
    subst h'
    rfl
  | cons c t ih =>
    rw [encode_tokens] at h
    cases hc : List.lookup c encode_pairs with
    | none =>
      rw [hc] at h
      exact absurd h (by simp)
    | some k =>
      rw [hc] at h
      cases ht : encode_tokens t with
      | error e =>
        rw [ht] at h
        exact absurd h (by simp)
      | ok ks =>
        rw [ht] at h
        injection h with h'
        subst h'
        rw [codec_decode]
        have hdec : List.lookup k decode_pairs = some (norm_char c) :=
          encode_decode_entry (c, k) (lookup_mem hc)
        rw [hdec, ih ht]
        simp

/-- C5: for every string of at most 16 codec-legal tokens, encoding
succeeds and decoding the result returns the string with every space
token replaced by `"."` and no other change; decoding is total over the
codes the encoder produces. -/
theorem C5_codec_roundtrip (s : List Char) (hlen : s.length ≤ 16)
    (hleg : ∀ c ∈ s, (List.lookup c encode_pairs).isSome = true) :
    ∃ codes, codec_encode s = Except.ok codes ∧
      codec_decode codes = some (s.map norm_char) := by
  have henc : ∃ codes, encode_tokens s = Except.ok codes := by
    clear hlen
    induction s with
    | nil => exact ⟨[], rfl⟩
    | cons c t ih =>
      obtain ⟨k, hk⟩ : ∃ k, List.lookup c encode_pairs = some k := by
        have := hleg c (List.mem_cons_self _ _)
        cases hc : List.lookup c encode_pairs with
        | none => rw [hc] at this; simp at this
        | some k => exact ⟨k, rfl⟩
      obtain ⟨ks, hks⟩ := ih (fun x hx => hleg x (List.mem_cons_of_mem _ hx))
      refine ⟨k :: ks, ?_⟩
      rw [encode_tokens, hk, hks]
  obtain ⟨codes, hcodes⟩ := henc
  refine ⟨codes, ?_, encode_tokens_decode hcodes⟩
  rw [codec_encode, if_neg (by omega)]
  exact hcodes

theorem C5_codec_roundtrip_witness :
    ∃ codes, codec_encode [Char.ofNat 97, Char.ofNat 32, Char.ofNat 90, Char.ofNat 42] =
        Except.ok codes ∧
      codec_decode codes = some ([Char.ofNat 97, Char.ofNat 32, Char.ofNat 90,
        Char.ofNat 42].map norm_char) :=
  C5_codec_roundtrip [Char.ofNat 97, Char.ofNat 32, Char.ofNat 90, Char.ofNat 42]
    (by decide) (by decide)

/- ---------------------------------------------------------------------
The tile bag (src/lib/src/tilebag.rs) and the draw-pile accounting of
src/lib/src/ai.rs.  A `HashMultiSet<Code>` is a multiset of codes;
its `Sub` removes element by element and removing an absent element does
nothing, i.e. counts subtract truncated at zero, which is `Multiset.sub`.
A tile set's table is reduced to its `(count, points)` columns, indexed
by code (the display labels play no role in the claims).
--------------------------------------------------------------------- -/

/-- Rust `TileBag::from_tileset`: for each code, `count` copies, plus the
two blanks that are always added (inserting a code with count 0 and not
inserting it are the same multiset). -/
def tilebag_from_tileset (tiles : List (Nat × Nat)) : Multiset Nat :=
  ((List.range tiles.length).map
    (fun c => Multiset.replicate (tiles.getD c (0, 0)).1 c)).sum +
    Multiset.replicate 2 BLANK

/-- Rust `used_tiles` (src/lib/src/ai.rs): every tile on the board with
wildcards normalized back to the blank code, plus the rack codes. -/
def used_tiles_list (state : List (List CellM)) (rack : List Nat) : List Nat :=
  (state.flatMap (fun row => row.filterMap id)).map
    (fun t => if is_wildcard t then BLANK else t) ++ rack

def used_tiles (state : List (List CellM)) (rack : List Nat) : Multiset Nat :=
  ↑(used_tiles_list state rack)

/-- Rust `remaining_tiles`: `full_bag.clone() - used_tiles(board, rack)`. -/
def remaining_tiles (full : Multiset Nat) (state : List (List CellM))
    (rack : List Nat) : Multiset Nat :=
  full - used_tiles state rack

/-- An empty 15x15 board state. -/
def state_empty : List (List CellM) := List.replicate 15 (List.replicate 15 none)

/-- A 15x15 board state holding three wildcard tiles (codes 65, 66, 67). -/
def state_three_wildcards : List (List CellM) :=
  ([some 65, some 66, some 67] ++ List.replicate 12 none) ::
    List.replicate 14 (List.replicate 15 none)

/-- C9 counterexample to the claim as stated: with three wildcards on the
board, the used tiles hold three blanks while the full bag holds only
two, so the subtraction truncates and the bag is no longer the union of
used and remaining tiles. -/
theorem C9_counterexample :
    tilebag_from_tileset [] ≠
      used_tiles state_three_wildcards [] +
        remaining_tiles (tilebag_from_tileset []) state_three_wildcards [] := by
  decide

/-- C9 (amended): whenever the used tiles (board tiles with wildcards
normalized back to blank, plus the rack) are contained in the full bag as
a multiset, the full bag equals the disjoint union of the used tiles and
`remaining_tiles`. -/
theorem C9_bag_accounting (tiles : List (Nat × Nat)) (state : List (List CellM))
    (rack : List Nat)
    (h : used_tiles state rack ≤ tilebag_from_tileset tiles) :
    tilebag_from_tileset tiles =
      used_tiles state rack + remaining_tiles (tilebag_from_tileset tiles) state rack := by
  unfold remaining_tiles
  rw [add_comm]
  exact (tsub_add_cancel_of_le h).symm

theorem C9_bag_accounting_witness :
    tilebag_from_tileset [(0, 0), (2, 1)] =
      used_tiles state_empty [1] +
        remaining_tiles (tilebag_from_tileset [(0, 0), (2, 1)]) state_empty [1] :=
  C9_bag_accounting [(0, 0), (2, 1)] state_empty [1] (by decide)

/- ---------------------------------------------------------------------
The board engine (src/lib/src/board.rs) with its premium grid
(src/lib/src/grid.rs).  The matcher fuel used by the board pipeline is a
fixed constant; every loop of the Rust matcher on a 16-cell row
terminates in far fewer pops.
--------------------------------------------------------------------- -/

def FUEL : Nat := 1000000

inductive GridCell where
  | noBonus
  | start
  | letterBonus (n : Nat)
  | wordBonus (n : Nat)
deriving DecidableEq

/-- The quarter board `_DEFAULT_QUARTER_BOARD` of src/lib/src/grid.rs. -/
def quarter_board : List (List GridCell) :=
  [[GridCell.letterBonus 3, GridCell.noBonus, GridCell.noBonus, GridCell.noBonus,
    GridCell.wordBonus 3, GridCell.noBonus, GridCell.noBonus, GridCell.letterBonus 2],
   [GridCell.noBonus, GridCell.letterBonus 2, GridCell.noBonus, GridCell.noBonus,
    GridCell.noBonus, GridCell.letterBonus 3, GridCell.noBonus, GridCell.noBonus],
   [GridCell.noBonus, GridCell.noBonus, GridCell.wordBonus 2, GridCell.noBonus,
    GridCell.noBonus, GridCell.noBonus, GridCell.letterBonus 2, GridCell.noBonus],
   [GridCell.noBonus, GridCell.noBonus, GridCell.noBonus, GridCell.letterBonus 3,
    GridCell.noBonus, GridCell.noBonus, GridCell.noBonus, GridCell.wordBonus 2],
   [GridCell.wordBonus 3, GridCell.noBonus, GridCell.noBonus, GridCell.noBonus,
    GridCell.wordBonus 2, GridCell.noBonus, GridCell.letterBonus 2, GridCell.noBonus],
   [GridCell.noBonus, GridCell.letterBonus 3, GridCell.noBonus, GridCell.noBonus,
    GridCell.noBonus, GridCell.letterBonus 3, GridCell.noBonus, GridCell.noBonus],
   [GridCell.noBonus, GridCell.noBonus, GridCell.letterBonus 2, GridCell.noBonus,
    GridCell.letterBonus 2, GridCell.noBonus, GridCell.noBonus, GridCell.noBonus],
   [GridCell.letterBonus 2, GridCell.noBonus, GridCell.noBonus, GridCell.wordBonus 2,
    GridCell.noBonus, GridCell.noBonus, GridCell.noBonus, GridCell.start]]

/-- Mirror a coordinate into the quarter board, as
`expand_quarter_board` fills all four mirrored positions per entry. -/
def fold7 (k : Nat) : Nat := if k ≤ 7 then k else 14 - k

/-- The default symmetric Wordfeud grid (`Grid::default`). -/
def grid_default : List (List GridCell) :=
  (List.range 15).map (fun y =>
    (List.range 15).map (fun x =>
      (quarter_board.getD (fold7 y) []).getD (fold7 x) GridCell.noBonus))

/-- Points for a code: `TileSet::points` is the table lookup, 0 when the
code is out of range (a tile set is the `(count, points)` columns of the
per-language table, indexed by code). -/
def tile_points (tiles : List (Nat × Nat)) (c : Nat) : Nat := (tiles.getD c (0, 0)).2

structure BoardM where
  grid : List (List GridCell)
  tiles : List (Nat × Nat)
  wordlist : Wordlist
  horizontal : List (List CellM)
  vertical : List (List CellM)
  rowdata : List RowDataM × List RowDataM
deriving DecidableEq

/-- `self.horizontal[y][x]` read with defaults (theorems keep indices in
range wherever Rust would panic). -/
def cellAt (state : List (List CellM)) (y x : Nat) : CellM :=
  (state.getD y []).getD x none

/-- `self.horizontal[y][x]` read that models the Rust panic as `none`. -/
def cellAt? (state : List (List CellM)) (y x : Nat) : Option CellM :=
  match state.get? y with
  | none => none
  | some row => row.get? x

/-- Rust `Row::is_empty_cell`: a single empty cell. -/
def is_empty_cell (row : List CellM) : Bool :=
  row.length == 1 && row.getD 0 none == none

/-- Rust `Row::start_end`: the maximal run around `i` if a tile were
placed at `i`: `start` is one past the last empty cell left of `i` (0 if
none), `end` the first empty cell right of `i` (the row length if none). -/
def start_end (row : List CellM) (i : Nat) : Nat × Nat :=
  let left := (List.range i).foldl
    (fun acc j => if row.getD j none = none then some j else acc) none
  let start := match left with
    | some p => p + 1
    | none => 0
  let stop := match (List.range' (i + 1) (row.length - (i + 1))).find?
      (fun j => row.getD j none == none) with
    | some p => p
    | none => row.length
  (start, stop)

/-- Rust `Row::surrounding_word`: the run around `i` with every cell
projected to its letter (wildcard flags stripped). -/
def surrounding_word (row : List CellM) (i : Nat) : List CellM :=
  let se := start_end row i
  (List.range' se.1 (se.2 - se.1)).map (fun j => cell_to_letter (row.getD j none))

/-- Rust `Row::replace`: the cells `start..end`, with every cell equal to
`from_` replaced by `to`. -/
def row_replace (row : List CellM) (s e : Nat) (cfrom cto : CellM) : List CellM :=
  (List.range' s (e - s)).map
    (fun j => if row.getD j none = cfrom then cto else row.getD j none)

/-- Rust `Word::from(&Row)`: unwrap every cell (the modelled callers only
build rows without empty cells; 0 stands for the panic value). -/
def word_from_row (r : List CellM) : List Nat := r.map (fun c => c.getD 0)

/-- Rust `Wordlist::connected_row`: one `(all_labels, connected)` entry
per cell of `row`. -/
def connected_row (wl : Wordlist) (row : List CellM) : RowDataM :=
  List.replicate row.length (wl.all_labels, true)

/-- Rust `Wordlist::get_legal_characters`: the labels usable at the first
empty slot of `word`, collected from a blank-rack match over a fully
permissive rowdata. -/
def get_legal_characters (wl : Wordlist) (word : List CellM) : Nat :=
  if is_empty_cell word then wl.all_labels
  else
    match (List.range word.length).find? (fun j => word.getD j none == none) with
    | none => 0
    | some i =>
      let rowdata := connected_row wl word
      let row := word ++ [none]
      (wl.matches 0 row rowdata 0 [BLANK] FUEL).foldl
        (fun chars m => ls_insert chars (label (m.getD i 0))) 0

/-- Rust `Board::surrounding_words`: the surrounding word at index `i` of
every crossing row. -/
def surrounding_words (horizontal vertical : List (List CellM)) (horiz : Bool)
    (i : Nat) : List (List CellM) :=
  (if horiz then vertical else horizontal).map (fun row => surrounding_word row i)

/-- Rust `Board::calc_rowdata`: legal characters and connectedness per
column, with the start-square exception at `(7, 7)`. -/
def calc_rowdata (wl : Wordlist) (horizontal vertical : List (List CellM))
    (horiz : Bool) (i : Nat) : RowDataM :=
  let sw := surrounding_words horizontal vertical horiz i
  (List.range sw.length).map (fun j =>
    (get_legal_characters wl (sw.getD j []),
     decide (i = 7 ∧ j = 7) || !is_empty_cell (sw.getD j [])))

/-- Rust `Board::set_rowdata`: rowdata for both orientations
(`rowdata[0]` from `calc_rowdata(false, i)`, `rowdata[1]` from
`calc_rowdata(true, i)`). -/
def set_rowdata (wl : Wordlist) (horizontal vertical : List (List CellM)) :
    List RowDataM × List RowDataM :=
  ((List.range 15).map (fun i => calc_rowdata wl horizontal vertical false i),
   (List.range 15).map (fun i => calc_rowdata wl horizontal vertical true i))

/-- The mirror loop of `Board::set_state`:
`vertical[j][i] = horizontal[i][j]` for all `i, j` in `0..15`. -/
def transpose15 (rows : List (List CellM)) : List (List CellM) :=
  (List.range 15).map (fun x => (List.range 15).map (fun y => cellAt rows y x))

/-- Rust `Board::set_state`: store the rows, rebuild the mirror, then
recompute the rowdata of both orientations. -/
def BoardM.set_state (b : BoardM) (rows : List (List CellM)) : BoardM :=
  { b with
    horizontal := rows,
    vertical := transpose15 rows,
    rowdata := set_rowdata b.wordlist rows (transpose15 rows) }

/-- One all-empty-set, unconnected rowdata row, as `Board::new` caches. -/
def empty_rowdata : RowDataM := List.replicate 15 (0, false)

/-- Rust `Board::new` (for a given tile table and wordlist): empty state
and the stale all-empty rowdata — `new` does not call `set_rowdata`. -/
def BoardM.new (tiles : List (Nat × Nat)) (wl : Wordlist) : BoardM :=
  { grid := grid_default, tiles := tiles, wordlist := wl,
    horizontal := state_empty, vertical := state_empty,
    rowdata := (List.replicate 15 empty_rowdata, List.replicate 15 empty_rowdata) }

/-- Rust `Board::is_occupied`: bounds-checked lookup in `vertical`. -/
def BoardM.is_occupied (b : BoardM) (x y : Nat) : Bool :=
  if x < 15 ∧ y < 15 then (cellAt b.vertical x y).isSome else false

/-- Rust `Board::tile_at`: bounds-checked lookup in `horizontal`. -/
def BoardM.tile_at (b : BoardM) (y x : Nat) : Option Nat :=
  if x < 15 ∧ y < 15 then cellAt b.horizontal y x else none

inductive ErrM where
  | tilePlacement (x y : Nat) (horizontal : Bool) (len : Nat)
  | tileReplace (x y : Nat)
  | invalidLetter (c : Nat)
deriving DecidableEq

/-- Rust `Letter::from_tile`: the tile's label (wildcard flag stripped). -/
def letter_from_tile (t : Nat) : Nat := label t

/-- The traversal loop of `Board::try_word`: collect the letters used on
empty cells, fail on the first differing tile, and propagate the Rust
panic (`none`) on an out-of-range read. -/
def try_word_go (state : List (List CellM)) (dx dy : Nat) :
    List Nat → Nat → Nat → Option (Except ErrM (List Nat))
  | [], _, _ => some (Except.ok [])
  | t :: rest, x, y =>
    match cellAt? state y x with
    | none => none
    | some none =>
      match try_word_go state dx dy rest (x + dx) (y + dy) with
      | none => none
      | some (Except.error e) => some (Except.error e)
      | some (Except.ok used) => some (Except.ok (letter_from_tile t :: used))
    | some (some t') =>
      if t' = t then try_word_go state dx dy rest (x + dx) (y + dy)
      else some (Except.error (ErrM.tileReplace x y))

/-- Rust `Board::try_word`: bounds check in the writing direction, then
the traversal. -/
def BoardM.try_word (b : BoardM) (word : List Nat) (x y : Nat) (horiz : Bool) :
    Option (Except ErrM (List Nat)) :=
  let dx := if horiz then 1 else 0
  let dy := if horiz then 0 else 1
  if 15 < x + word.length * dx ∨ 15 < y + word.length * dy then
    some (Except.error (ErrM.tilePlacement x y horiz word.length))
  else try_word_go b.horizontal dx dy word x y

/-- The write loop of `Board::play_word_unchecked`. -/
def write_word (state : List (List CellM)) :
    List Nat → Nat → Nat → Nat → Nat → List (List CellM)
  | [], _, _, _, _ => state
  | t :: rest, x, y, dx, dy =>
    write_word (state.set y ((state.getD y []).set x (some t))) rest (x + dx) (y + dy) dx dy

/-- Rust `Board::play_word_unchecked`: write the tiles into `horizontal`
then rebuild everything through `set_state`. -/
def BoardM.play_word_unchecked (b : BoardM) (word : List Nat) (x y : Nat)
    (horiz : Bool) : BoardM :=
  let dx := if horiz then 1 else 0
  let dy := if horiz then 0 else 1
  b.set_state (write_word b.horizontal word x y dx dy)

/-- Rust `Board::play_word`, on an already encoded word (the string
encode/decode wrapper is dropped; the claims are about placement):
returns the used letters and the possibly mutated board.  On an error the
original board is returned unchanged; `none` models a panic. -/
def BoardM.play_word (b : BoardM) (word : List Nat) (x y : Nat)
    (horiz modify : Bool) : Option (Except ErrM (List Nat) × BoardM) :=
  match b.try_word word x y horiz with
  | none => none
  | some (Except.error e) => some (Except.error e, b)
  | some (Except.ok used) =>
    some (Except.ok used, if modify then b.play_word_unchecked word x y horiz else b)

/- ---------------------------------------------------------------------
Scoring (`Board::calc_word_points_unchecked`).  The Rust loop carries
four accumulators (`word_points`, `word_multiplicator`, `tiles_used`,
`total_points`-so-far from crossing words); the model folds over the
word from the left collecting the same four values, parameterized by the
crossing-word contribution so that the `include_crossing_words` flag
selects the real contribution or zero (the recursive call always passes
`false`, so the recursion is two plain definitions deep).
--------------------------------------------------------------------- -/

structure ScanAcc where
  word_points : Nat
  mult : Nat
  tiles_used : Nat
  cross : Nat
deriving DecidableEq

/-- The accumulator loop of `calc_word_points_unchecked`: per tile, base
points (doubled or tripled only on an empty cell with a letter bonus), a
word multiplier and a crossing contribution only on empty cells, and a
count of newly placed tiles. -/
def scan_word (b : BoardM) (crossF : Nat → Nat → Nat → Nat) :
    List Nat → Nat → Nat → Nat → Nat → ScanAcc
  | [], _, _, _, _ => { word_points := 0, mult := 1, tiles_used := 0, cross := 0 }
  | t :: rest, x, y, dx, dy =>
    let r := scan_word b crossF rest (x + dx) (y + dy) dx dy
    let lp := tile_points b.tiles t
    if (cellAt b.horizontal y x).isSome then
      { r with word_points := r.word_points + lp }
    else
      match (b.grid.getD y []).getD x GridCell.noBonus with
      | GridCell.letterBonus n =>
        { word_points := r.word_points + n * lp, mult := r.mult,
          tiles_used := r.tiles_used + 1, cross := r.cross + crossF x y t }
      | GridCell.wordBonus n =>
        { word_points := r.word_points + lp, mult := r.mult * n,
          tiles_used := r.tiles_used + 1, cross := r.cross + crossF x y t }
      | _ =>
        { word_points := r.word_points + lp, mult := r.mult,
          tiles_used := r.tiles_used + 1, cross := r.cross + crossF x y t }

/-- Combine the accumulators exactly as the Rust function does on exit:
crossing total, plus word points times multiplier, plus the 40-point
bingo bonus when at least 7 tiles were newly placed. -/
def calc_total (b : BoardM) (crossF : Nat → Nat → Nat → Nat) (word : List Nat)
    (x y : Nat) (horiz : Bool) : Nat :=
  let dx := if horiz then 1 else 0
  let dy := if horiz then 0 else 1
  let r := scan_word b crossF word x y dx dy
  r.cross + r.word_points * r.mult + (if 7 ≤ r.tiles_used then 40 else 0)

/-- `calc_word_points_unchecked` with `include_crossing_words = false`. -/
def calc_word_points_nc (b : BoardM) (word : List Nat) (x y : Nat) (horiz : Bool) : Nat :=
  calc_total b (fun _ _ _ => 0) word x y horiz

/-- The crossing-word contribution of one newly placed tile: if the
crossing run through the cell has length above 1, score the run with the
tile substituted, crossing words off. -/
def cross_contrib (b : BoardM) (horiz : Bool) (x y t : Nat) : Nat :=
  let crow := if horiz then b.vertical.getD x [] else b.horizontal.getD y []
  let ci := if horiz then y else x
  let se := start_end crow ci
  if 1 < se.2 - se.1 then
    let cword := word_from_row (row_replace crow se.1 se.2 none (some t))
    let cx := if horiz then x else se.1
    let cy := if horiz then se.1 else y
    calc_word_points_nc b cword cx cy (!horiz)
  else 0

/-- Rust `Board::calc_word_points_unchecked`. -/
def calc_word_points_unchecked (b : BoardM) (word : List Nat) (x y : Nat)
    (horiz include_crossing : Bool) : Nat :=
  if include_crossing then calc_total b (cross_contrib b horiz) word x y horiz
  else calc_word_points_nc b word x y horiz

/-- Rust `Board::calc_word_points`: bounds check, then the unchecked
score. -/
def calc_word_points (b : BoardM) (word : List Nat) (x y : Nat)
    (horiz include_crossing : Bool) : Except ErrM Nat :=
  let dx := if horiz then 1 else 0
  let dy := if horiz then 0 else 1
  if 15 < x + word.length * dx ∨ 15 < y + word.length * dy then
    Except.error (ErrM.tilePlacement x y horiz word.length)
  else Except.ok (calc_word_points_unchecked b word x y horiz include_crossing)

/- ---------------------------------------------------------------------
The word enumeration pipeline
(`Wordlist::words`, `Board::words`, `Board::calc_all_word_scores`).
--------------------------------------------------------------------- -/

/-- Rust `Wordlist::words`: extend the row with the empty sentinel, take
`maxdist` from the rack size when absent, and run the matcher from every
start index. -/
def wordlist_words (wl : Wordlist) (row : List CellM) (rowdata : RowDataM)
    (letters : List Nat) (maxdist : Option Nat) : List (Nat × List Nat) :=
  let row' := row ++ [none]
  let md := maxdist.getD letters.length
  (start_indices row' rowdata md).flatMap
    (fun pos => (wl.matches 0 row' rowdata pos letters FUEL).map (fun w => (pos, w)))

/-- Rust `Board::words`: the stored rowdata of the requested orientation
and row index feeds `Wordlist::words`. -/
def BoardM.words (b : BoardM) (row : List CellM) (horiz : Bool) (i : Nat)
    (letters : List Nat) : List (Nat × List Nat) :=
  let rowdata := (if horiz then b.rowdata.2 else b.rowdata.1).getD i []
  wordlist_words b.wordlist row rowdata letters none

structure ScoreM where
  x : Nat
  y : Nat
  horizontal : Bool
  word : List Nat
  score : Nat
deriving DecidableEq

/-- Rust `Board::calc_all_word_scores_inner`: all placements over the 15
horizontal rows then the 15 vertical rows, each scored with crossing
words on (the `Result` wrapper never fails there and is dropped). -/
def calc_all_word_scores (b : BoardM) (letters : List Nat) : List ScoreM :=
  (b.horizontal.enum.flatMap (fun p =>
    (b.words p.2 true p.1 letters).map (fun q =>
      { x := q.1, y := p.1, horizontal := true, word := q.2,
        score := calc_word_points_unchecked b q.2 q.1 p.1 true true }))) ++
  (b.vertical.enum.flatMap (fun p =>
    (b.words p.2 false p.1 letters).map (fun q =>
      { x := p.1, y := q.1, horizontal := false, word := q.2,
        score := calc_word_points_unchecked b q.2 p.1 q.1 false true })))

/- ---------------------------------------------------------------------
The opponent evaluator (`Board::evaluate_opponent_scores`,
`Board::sample_scores`, `ai::find_best_scores`).
--------------------------------------------------------------------- -/

/-- The endgame loop of `evaluate_opponent_scores`: the running maximum
starts from the initial `vec![0]`, every reply whose used letters count
equals the rack size gets `our_tile_score` added and raises the exit
flag; `try_word` errors and panics propagate. -/
def eval_opp_go (b : BoardM) (nletters ots : Nat) :
    List ScoreM → Option (Except ErrM (Nat × Bool))
  | [] => some (Except.ok (0, false))
  | s :: rest =>
    match b.try_word s.word s.x s.y s.horizontal with
    | none => none
    | some (Except.error e) => some (Except.error e)
    | some (Except.ok played) =>
      let sc := if played.length = nletters then s.score + ots else s.score
      match eval_opp_go b nletters ots rest with
      | none => none
      | some (Except.error e) => some (Except.error e)
      | some (Except.ok (m, exr)) =>
        some (Except.ok (max sc m, decide (played.length = nletters) || exr))

/-- Rust `Board::evaluate_opponent_scores`.  In midgame the sorted-
descending first element is the maximum reply score (0 when the opponent
has no move); in endgame the loop above runs over all replies. -/
def evaluate_opponent_scores (b : BoardM) (letters : List Nat)
    (our_tile_score : Nat) (in_endgame : Bool) : Option (Except ErrM (Nat × Bool)) :=
  let result := calc_all_word_scores b letters
  if in_endgame then eval_opp_go b letters.length our_tile_score result
  else if result.isEmpty then some (Except.ok (0, false))
  else some (Except.ok ((result.map (fun s => s.score)).foldl max 0, false))

/-- Rust `Board::sample_scores`: evaluate every rack, collecting into one
result (first error wins, panics propagate). -/
def sample_scores (b : BoardM) (racks : List (List Nat)) (our_tile_score : Nat)
    (in_endgame : Bool) : Option (Except ErrM (List (Nat × Bool))) :=
  match racks with
  | [] => some (Except.ok [])
  | r :: rest =>
    match evaluate_opponent_scores b r our_tile_score in_endgame with
    | none => none
    | some (Except.error e) => some (Except.error e)
    | some (Except.ok v) =>
      match sample_scores b rest our_tile_score in_endgame with
      | none => none
      | some (Except.error e) => some (Except.error e)
      | some (Except.ok vs) => some (Except.ok (v :: vs))

inductive ExitFlagM where
  | noExit
  | our
  | opponent
deriving DecidableEq

/-- The fields of `ai::Score` that the claims are about.  The
floating-point fields `adj_score` and `std` (mean and standard deviation
of the opponent samples) are outside the embedding; `word` and `played`
are kept as code lists instead of decoded strings. -/
structure BestScoreM where
  x : Nat
  y : Nat
  horizontal : Bool
  word : List Nat
  score : Nat
  played : List Nat
  exit_flag : ExitFlagM
deriving DecidableEq

/-- Rust `tiles_score`: the summed point values of a rack. -/
def tiles_score (tiles : List (Nat × Nat)) (rack : List Nat) : Nat :=
  (rack.map (tile_points tiles)).sum

/-- The candidate loop of `find_best_scores`: play the word, in endgame
mark `Our` exit when the whole rack was used, otherwise evaluate the
opponent samples on the played board (with `in_endgame = false` and the
candidate's score as tile score, exactly as the Rust call passes them);
the board is restored from the snapshot after each candidate. -/
def find_best_go (b : BoardM) (in_endgame : Bool) (samples : List (List Nat)) :
    List ScoreM → Option (Except ErrM (List BestScoreM))
  | [] => some (Except.ok [])
  | s :: rest =>
    match b.play_word s.word s.x s.y s.horizontal true with
    | none => none
    | some (Except.error e, _) => some (Except.error e)
    | some (Except.ok played, bp) =>
      let entry : Option (Except ErrM BestScoreM) :=
        if in_endgame ∧ played.length = s.word.length then
          some (Except.ok
            { x := s.x, y := s.y, horizontal := s.horizontal, word := s.word,
              score := s.score, played := played, exit_flag := ExitFlagM.our })
        else
          match sample_scores bp samples s.score false with
          | none => none
          | some (Except.error e) => some (Except.error e)
          | some (Except.ok res) =>
            some (Except.ok
              { x := s.x, y := s.y, horizontal := s.horizontal, word := s.word,
                score := s.score, played := played,
                exit_flag :=
                  if res.any (fun p => p.2) then ExitFlagM.opponent
                  else ExitFlagM.noExit })
      match entry with
      | none => none
      | some (Except.error e) => some (Except.error e)
      | some (Except.ok v) =>
        match find_best_go b in_endgame samples rest with
        | none => none
        | some (Except.error e) => some (Except.error e)
        | some (Except.ok vs) => some (Except.ok (v :: vs))

/-- Stable insertion of a score into a list sorted descending by score:
`s` goes in front of the first entry it beats or ties (so earlier list
entries stay in front of later equal-score ones, as Rust's stable
`sort_by` keeps them). -/
def insert_desc (s : ScoreM) : List ScoreM → List ScoreM
  | [] => [s]
  | t :: rest => if t.score ≤ s.score then s :: t :: rest else t :: insert_desc s rest

/-- Rust `words.sort_by(|a, b| b.score.cmp(&a.score))`: stable descending
sort by score. -/
def sort_desc (l : List ScoreM) : List ScoreM := l.foldr insert_desc []

/-- The remaining tiles as a sorted `Vec<Code>` (Rust collects the
multiset and calls `sort_unstable`).  Every code of a bag built over
`tiles` is below `max tiles.length 65` (table codes are below the table
length, the blank is 64), so enumerating codes in ascending order with
their multiplicities is exactly the sorted list. -/
def bag_sorted (tiles : List (Nat × Nat)) (s : Multiset Nat) : List Nat :=
  (List.range (max tiles.length 65)).flatMap (fun c => List.replicate (s.count c) c)

/-- Rust `ai::find_best_scores`, with the seeded random sampling
abstracted into an `oracle` giving each midgame sample rack (the result
never depends on the oracle at the inputs the claims examine).  `none`
models a panic; in particular the midgame slice `&words[0..20]` panics
whenever fewer than 20 scored words exist. -/
def find_best_scores (b : BoardM) (rack : List Nat) (nsamples : Nat)
    (oracle : Nat → List Nat) : Option (Except ErrM (List BestScoreM)) :=
  let full := tilebag_from_tileset b.tiles
  let remaining := remaining_tiles full b.horizontal rack
  let tiles := bag_sorted b.tiles remaining
  let words := calc_all_word_scores b rack
  if words.isEmpty then some (Except.ok [])
  else
    let sorted := sort_desc words
    let in_endgame := Multiset.card remaining < 7
    if in_endgame then
      match tiles.find? (fun c => !(decide (valid_letter c))) with
      | some c => some (Except.error (ErrM.invalidLetter c))
      | none => find_best_go b true [tiles] sorted
    else
      if sorted.length < 20 then none
      else find_best_go b false ((List.range nsamples).map oracle) (sorted.take 20)

/- ---------------------------------------------------------------------
C10: totality of the public board queries.
--------------------------------------------------------------------- -/

/-- The flattened trie of the empty lexicon, as `Wordlist::from_words`
builds it for `&[]`: just the root node, not terminal, no edges. -/
def wl_empty : Wordlist :=
  { nodes := [(0, 0)], labels := [0], terminal := [false], all_labels := 0 }

/-- C10: `Board::is_occupied` and `Board::tile_at` are total: whenever
`x ≥ 15` or `y ≥ 15` they return `false` and `none` respectively, the
bounds check preventing any read outside the 15x15 state. -/
theorem C10_query_totality (b : BoardM) (x y : Nat) (h : 15 ≤ x ∨ 15 ≤ y) :
    b.is_occupied x y = false ∧ b.tile_at y x = none := by
  unfold BoardM.is_occupied BoardM.tile_at
  rw [if_neg (by omega), if_neg (by omega)]
  exact ⟨rfl, rfl⟩

theorem C10_query_totality_witness :
    (BoardM.new [] wl_empty).is_occupied 15 3 = false ∧
      (BoardM.new [] wl_empty).tile_at 3 15 = none :=
  C10_query_totality (BoardM.new [] wl_empty) 15 3 (Or.inl (by decide))

/- ---------------------------------------------------------------------
C4: the mirror / rowdata invariant under `set_state` and `play_word`.
--------------------------------------------------------------------- -/

/-- The board operations the claim quantifies over. -/
inductive OpM where
  | setStateOp (rows : List (List CellM))
  | playWordOp (word : List Nat) (x y : Nat) (horiz : Bool) (modify : Bool)

/-- Apply one operation.  A `play_word` panic (`none`) aborts the Rust
program, so no later state exists; keeping the board unchanged lets the
sequence semantics stay total without affecting any surviving run. -/
def apply_op (b : BoardM) : OpM → BoardM
  | OpM.setStateOp rows => b.set_state rows
  | OpM.playWordOp w x y h m =>
    match b.play_word w x y h m with
    | some (_, b') => b'
    | none => b

def apply_ops (b : BoardM) (ops : List OpM) : BoardM := ops.foldl apply_op b

/-- The claimed invariant: `horizontal[y][x] = vertical[x][y]` for all
`x, y` in `0..15`, and the stored rowdata of both orientations is the
one recomputed from the stored state. -/
def invB (b : BoardM) : Bool :=
  ((List.range 15).all (fun x => (List.range 15).all (fun y =>
    decide (cellAt b.horizontal y x = cellAt b.vertical x y)))) &&
  decide (b.rowdata = set_rowdata b.wordlist b.horizontal b.vertical)

theorem getD_map_range {α : Type} (f : Nat → α) (n i : Nat) (d : α) :
    ((List.range n).map f).getD i d = if i < n then f i else d := by
  rw [List.getD_eq_getElem?_getD, List.getElem?_map]
  by_cases h : i < n
  · rw [List.getElem?_range h]
    simp [h]
  · rw [List.getElem?_eq_none (by simpa using h)]
    simp [h]

theorem invB_set_state (b : BoardM) (rows : List (List CellM)) :
    invB (b.set_state rows) = true := by
  rw [invB, Bool.and_eq_true]
  constructor
  · rw [List.all_eq_true]
    intro x hx
    rw [List.all_eq_true]
    intro y hy
    rw [List.mem_range] at hx hy
    rw [decide_eq_true_eq]
    show cellAt rows y x = cellAt (transpose15 rows) x y
    unfold transpose15 cellAt
    rw [getD_map_range, if_pos hx, getD_map_range, if_pos hy]
  · rw [decide_eq_true_eq]
    rfl

theorem invB_apply_op {b : BoardM} (hb : invB b = true) (op : OpM) :
    invB (apply_op b op) = true := by
  cases op with
  | setStateOp rows => exact invB_set_state b rows
  | playWordOp w x y h m =>
    show invB (match b.play_word w x y h m with
      | some (_, b') => b'
      | none => b) = true
    rw [BoardM.play_word]
    cases htw : b.try_word w x y h with
    | none => exact hb
    | some r =>
      cases r with
      | error e => exact hb
      | ok used =>
        cases m with
        | false => exact hb
        | true => exact invB_set_state b _

/-- C4 (amended): after any sequence of `set_state` / `play_word`
operations applied to a board that has gone through at least one
`set_state` (every `set_state`, and every successful `play_word` with
`modify = true`, rebuilds the mirror and the rowdata), the two state
arrays agree — `horizontal[y][x] = vertical[x][y]` for all `x, y` in
`0..15` — and both rowdata orientations are the ones recomputed from the
state; equivalently, the invariant is established by `set_state` and
preserved by every operation. -/
theorem C4_mirror_invariant (b : BoardM) (rows : List (List CellM)) (ops : List OpM) :
    invB (apply_ops (b.set_state rows) ops) = true ∧
    (invB b = true → invB (apply_ops b ops) = true) := by
  have hpres : ∀ (b0 : BoardM), invB b0 = true → invB (apply_ops b0 ops) = true := by
    unfold apply_ops
    induction ops with
    | nil => intro b0 hb; exact hb
    | cons op rest ih =>
      intro b0 hb
      exact ih (apply_op b0 op) (invB_apply_op hb op)
  exact ⟨hpres _ (invB_set_state b rows), hpres b⟩

/-- C4 counterexample to the claim as stated: a freshly built board
(`Board::new`) still carries the stale all-empty rowdata, and a
non-mutating `play_word` (`modify = false`) leaves it that way, so after
this operation sequence the stored rowdata is not the recomputed one —
the recomputed rowdata marks the start square `(7, 7)` Connected. -/
theorem C4_counterexample :
    invB (apply_ops (BoardM.new [] wl_empty)
      [OpM.playWordOp [1] 0 0 true false]) = false := by
  decide

theorem C4_mirror_invariant_witness :
    invB (apply_ops ((BoardM.new [] wl_empty).set_state state_empty)
        [OpM.playWordOp [1] 7 7 true true]) = true ∧
      invB (apply_ops ((BoardM.new [] wl_empty).set_state state_empty)
        [OpM.setStateOp state_empty]) = true :=
  ⟨(C4_mirror_invariant (BoardM.new [] wl_empty) state_empty
      [OpM.playWordOp [1] 7 7 true true]).1,
   (C4_mirror_invariant ((BoardM.new [] wl_empty).set_state state_empty) state_empty
      [OpM.setStateOp state_empty]).2 (by decide)⟩

/- ---------------------------------------------------------------------
C6: the error behaviour of `play_word` / `try_word`.
--------------------------------------------------------------------- -/

/-- A proper 15x15 board state (what `state_from_strings` produces and
the only shape Rust can traverse without panicking). -/
def state_wf (state : List (List CellM)) : Prop :=
  state.length = 15 ∧ ∀ r ∈ state, r.length = 15

/-- The step deltas of a placement direction. -/
def dxOf (horiz : Bool) : Nat := if horiz then 1 else 0

def dyOf (horiz : Bool) : Nat := if horiz then 0 else 1

/-- Cell `j` of the traversal agrees with the word: empty, or holding
exactly the word's tile. -/
def agreeable (state : List (List CellM)) (word : List Nat) (x y dx dy j : Nat) : Prop :=
  cellAt state (y + j * dy) (x + j * dx) = none ∨
    cellAt state (y + j * dy) (x + j * dx) = some (word.getD j 0)

/-- The used letters `try_word` collects: the word's letters over the
empty cells, in traversal order (wildcard flags stripped by
`Letter::from_tile`). -/
def used_spec (state : List (List CellM)) (word : List Nat) (x y dx dy : Nat) : List Nat :=
  (List.range word.length).filterMap (fun j =>
    if cellAt state (y + j * dy) (x + j * dx) = none
    then some (letter_from_tile (word.getD j 0)) else none)

theorem cellAt?_eq {state : List (List CellM)} (hwf : state_wf state) {y x : Nat}
    (hy : y < 15) (hx : x < 15) : cellAt? state y x = some (cellAt state y x) := by
  obtain ⟨hlen, hrows⟩ := hwf
  have hy' : y < state.length := by omega
  have hrow : state.get? y = some state[y] := by
    rw [List.get?_eq_getElem?]
    exact List.getElem?_eq_getElem hy'
  have hrlen : state[y].length = 15 := hrows _ (List.getElem_mem hy')
  have hx' : x < state[y].length := by omega
  have hcell : state[y].get? x = some state[y][x] := by
    rw [List.get?_eq_getElem?]
    exact List.getElem?_eq_getElem hx'
  have h1 : state.getD y [] = state[y] := by
    rw [List.getD_eq_getElem?_getD, List.getElem?_eq_getElem hy']
    rfl
  have h2 : state[y].getD x none = state[y][x] := by
    rw [List.getD_eq_getElem?_getD, List.getElem?_eq_getElem hx']
    rfl
  have hCell : cellAt state y x = state[y][x] := by
    unfold cellAt
    rw [h1, h2]
  simp only [cellAt?, hrow, hcell, hCell]

theorem used_spec_nil (state : List (List CellM)) (x y dx dy : Nat) :
    used_spec state [] x y dx dy = [] := rfl

theorem used_spec_cons (state : List (List CellM)) (t : Nat) (rest : List Nat)
    (x y dx dy : Nat) :
    used_spec state (t :: rest) x y dx dy =
      (if cellAt state y x = none then [letter_from_tile t] else []) ++
        used_spec state rest (x + dx) (y + dy) dx dy := by
  unfold used_spec
  rw [List.length_cons, List.range_succ_eq_map, List.filterMap_cons]
  have hhead : (if cellAt state (y + 0 * dy) (x + 0 * dx) = none
      then some (letter_from_tile ((t :: rest).getD 0 0)) else none) =
      (if cellAt state y x = none then some (letter_from_tile t) else none) := by
    simp
  have htail : List.filterMap (fun j =>
      if cellAt state (y + j * dy) (x + j * dx) = none
      then some (letter_from_tile ((t :: rest).getD j 0)) else none)
      ((List.range rest.length).map Nat.succ) =
      List.filterMap (fun j =>
        if cellAt state ((y + dy) + j * dy) ((x + dx) + j * dx) = none
        then some (letter_from_tile (rest.getD j 0)) else none)
      (List.range rest.length) := by
    rw [List.filterMap_map]
    apply List.filterMap_congr
    intro j _
    have hx2 : x + (j + 1) * dx = (x + dx) + j * dx := by ring
    have hy2 : y + (j + 1) * dy = (y + dy) + j * dy := by ring
    simp only [Function.comp, Nat.succ_eq_add_one, hx2, hy2, List.getD_cons_succ]
  rw [htail, hhead]
  cases hc : cellAt state y x <;> simp

theorem try_word_go_ok (state : List (List CellM)) (hwf : state_wf state) (dx dy : Nat) :
    ∀ (word : List Nat) (x y : Nat),
      (∀ j < word.length, x + j * dx < 15 ∧ y + j * dy < 15) →
      (∀ j < word.length, agreeable state word x y dx dy j) →
      try_word_go state dx dy word x y =
        some (Except.ok (used_spec state word x y dx dy)) := by
  intro word
  induction word with
  | nil =>
    intro x y _ _
    rfl
  | cons t rest ih =>
    intro x y hin hag
    have h0 := hin 0 (by simp)
    simp only [Nat.zero_mul, Nat.add_zero] at h0
    have hshift_in : ∀ j < rest.length, (x + dx) + j * dx < 15 ∧ (y + dy) + j * dy < 15 := by
      intro j hj
      have := hin (j + 1) (by simp; omega)
      have hx2 : x + (j + 1) * dx = (x + dx) + j * dx := by ring
      have hy2 : y + (j + 1) * dy = (y + dy) + j * dy := by ring
      rw [hx2, hy2] at this
      exact this
    have hshift_ag : ∀ j < rest.length, agreeable state rest (x + dx) (y + dy) dx dy j := by
      intro j hj
      have := hag (j + 1) (by simp; omega)
      unfold agreeable at this ⊢
      have hx2 : x + (j + 1) * dx = (x + dx) + j * dx := by ring
      have hy2 : y + (j + 1) * dy = (y + dy) + j * dy := by ring
      rw [hx2, hy2, List.getD_cons_succ] at this
      exact this
    have hrec := ih (x + dx) (y + dy) hshift_in hshift_ag
    have hag0 := hag 0 (by simp)
    unfold agreeable at hag0
    simp only [Nat.zero_mul, Nat.add_zero, List.getD_cons_zero] at hag0
    have hkey := cellAt?_eq hwf h0.2 h0.1
    rw [used_spec_cons]
    cases hc : cellAt state y x with
    | none =>
      rw [hc] at hkey
      simp only [try_word_go, hkey, hrec]
      simp
    | some t' =>
      have ht' : t' = t := by
        rcases hag0 with h | h
        · rw [hc] at h
          exact absurd h (by simp)
        · rw [hc] at h
          injection h
      subst ht'
      rw [hc] at hkey
      simp only [try_word_go, hkey]
      simp [hrec]

theorem try_word_go_err (state : List (List CellM)) (hwf : state_wf state) (dx dy : Nat) :
    ∀ (word : List Nat) (x y k : Nat), k < word.length →
      (∀ j < word.length, x + j * dx < 15 ∧ y + j * dy < 15) →
      (∀ j < k, agreeable state word x y dx dy j) →
      (∃ t', cellAt state (y + k * dy) (x + k * dx) = some t' ∧ t' ≠ word.getD k 0) →
      try_word_go state dx dy word x y =
        some (Except.error (ErrM.tileReplace (x + k * dx) (y + k * dy))) := by
  intro word
  induction word with
  | nil =>
    intro x y k hk
    simp at hk
  | cons t rest ih =>
    intro x y k hk hin hag hbad
    have h0 := hin 0 (by simp)
    simp only [Nat.zero_mul, Nat.add_zero] at h0
    have hkey := cellAt?_eq hwf h0.2 h0.1
    cases k with
    | zero =>
      obtain ⟨t', hc, hne⟩ := hbad
      simp only [Nat.zero_mul, Nat.add_zero, List.getD_cons_zero] at hc hne
      rw [hc] at hkey
      simp only [Nat.zero_mul, Nat.add_zero]
      simp only [try_word_go, hkey]
      rw [if_neg hne]
    | succ k' =>
      have hx2 : x + (k' + 1) * dx = (x + dx) + k' * dx := by ring
      have hy2 : y + (k' + 1) * dy = (y + dy) + k' * dy := by ring
      have hshift_in : ∀ j < rest.length, (x + dx) + j * dx < 15 ∧ (y + dy) + j * dy < 15 := by
        intro j hj
        have := hin (j + 1) (by simp; omega)
        have hx3 : x + (j + 1) * dx = (x + dx) + j * dx := by ring
        have hy3 : y + (j + 1) * dy = (y + dy) + j * dy := by ring
        rw [hx3, hy3] at this
        exact this
      have hshift_ag : ∀ j < k', agreeable state rest (x + dx) (y + dy) dx dy j := by
        intro j hj
        have := hag (j + 1) (by omega)
        unfold agreeable at this ⊢
        have hx3 : x + (j + 1) * dx = (x + dx) + j * dx := by ring
        have hy3 : y + (j + 1) * dy = (y + dy) + j * dy := by ring
        rw [hx3, hy3, List.getD_cons_succ] at this
        exact this
      have hbad' : ∃ t', cellAt state ((y + dy) + k' * dy) ((x + dx) + k' * dx) = some t' ∧
          t' ≠ rest.getD k' 0 := by
        obtain ⟨t', hc, hne⟩ := hbad
        rw [hx2, hy2] at hc
        rw [List.getD_cons_succ] at hne
        exact ⟨t', hc, hne⟩
      have hrec := ih (x + dx) (y + dy) k'
        (by simp only [List.length_cons] at hk; omega) hshift_in hshift_ag hbad'
      have hag0 := hag 0 (by omega)
      unfold agreeable at hag0
      simp only [Nat.zero_mul, Nat.add_zero, List.getD_cons_zero] at hag0
      rw [hx2, hy2]
      cases hc : cellAt state y x with
      | none =>
        rw [hc] at hkey
        simp only [try_word_go, hkey, hrec]
      | some t' =>
        have ht' : t' = t := by
          rcases hag0 with h | h
          · rw [hc] at h
            exact absurd h (by simp)
          · rw [hc] at h
            injection h
        subst ht'
        rw [hc] at hkey
        simp only [try_word_go, hkey]
        simp [hrec]

instance state_wf_dec (state : List (List CellM)) : Decidable (state_wf state) := by
  unfold state_wf
  infer_instance

theorem bounds_not_over (x y len : Nat) (horiz : Bool) (hx : x < 15) (hy : y < 15)
    (hin : ∀ j < len, x + j * dxOf horiz < 15 ∧ y + j * dyOf horiz < 15) :
    ¬(15 < x + len * dxOf horiz ∨ 15 < y + len * dyOf horiz) := by
  cases len with
  | zero =>
    cases horiz <;> simp [dxOf, dyOf] <;> omega
  | succ n =>
    have hlast := hin n (by omega)
    cases horiz <;> simp [dxOf, dyOf] at hlast ⊢ <;> omega

/-- C6.  Amended behaviour of `Board::play_word` / `Board::try_word`.  The
claim as stated is false: a word whose START cell already lies off the
board (for example `y = 15` with a horizontal word) passes the overrun
check `x + len*dx > N || y + len*dy > N` and then panics on the row index
instead of returning `TilePlacementError` (see `C6_counterexample`).
Amended with the start cell on the board (`x < 15`, `y < 15`) and a well
formed 15x15 state, the claim holds: (1) a word overrunning the edge
fails with `TilePlacementError{x,y,horizontal,len}` and the board is
returned unchanged even when `modify = true`; (2) if every traversed cell
is on the board and the first disagreeing cell — one holding a tile
different from the word's tile, all earlier cells agreeing — is at step
`k`, the result is `TileReplaceError` naming that cell, board unchanged;
(3) if every traversed cell agrees, the result is `Ok` with exactly the
word's letters on the empty cells (wildcard flags stripped), and with
`modify = false` the board is not mutated at all. -/
theorem C6_play_word (b : BoardM) (word : List Nat) (x y : Nat) (horiz modify : Bool)
    (hwf : state_wf b.horizontal) (hx : x < 15) (hy : y < 15) :
    ((15 < x + word.length * dxOf horiz ∨ 15 < y + word.length * dyOf horiz) →
        b.play_word word x y horiz modify =
          some (Except.error (ErrM.tilePlacement x y horiz word.length), b)) ∧
    ((∀ j < word.length, x + j * dxOf horiz < 15 ∧ y + j * dyOf horiz < 15) →
      ∀ k, k < word.length →
        (∀ j < k, agreeable b.horizontal word x y (dxOf horiz) (dyOf horiz) j) →
        (∃ t', cellAt b.horizontal (y + k * dyOf horiz) (x + k * dxOf horiz) = some t' ∧
            t' ≠ word.getD k 0) →
        b.play_word word x y horiz modify =
          some (Except.error
            (ErrM.tileReplace (x + k * dxOf horiz) (y + k * dyOf horiz)), b)) ∧
    ((∀ j < word.length, x + j * dxOf horiz < 15 ∧ y + j * dyOf horiz < 15) →
      (∀ j < word.length, agreeable b.horizontal word x y (dxOf horiz) (dyOf horiz) j) →
      b.play_word word x y horiz modify =
        some (Except.ok (used_spec b.horizontal word x y (dxOf horiz) (dyOf horiz)),
          if modify then b.play_word_unchecked word x y horiz else b)) := by
  refine ⟨?_, ?_, ?_⟩
  · intro hover
    simp only [dxOf, dyOf] at hover
    have htry : b.try_word word x y horiz =
        some (Except.error (ErrM.tilePlacement x y horiz word.length)) := by
      simp only [BoardM.try_word]
      rw [if_pos hover]
    simp only [BoardM.play_word, htry]
  · intro hin k hk hag hbad
    have hnot := bounds_not_over x y word.length horiz hx hy hin
    simp only [dxOf, dyOf] at hnot
    have htry : b.try_word word x y horiz =
        some (Except.error
          (ErrM.tileReplace (x + k * dxOf horiz) (y + k * dyOf horiz))) := by
      simp only [BoardM.try_word]
      rw [if_neg hnot]
      exact try_word_go_err b.horizontal hwf (dxOf horiz) (dyOf horiz) word x y k hk
        hin hag hbad
    simp only [BoardM.play_word, htry]
  · intro hin hag
    have hnot := bounds_not_over x y word.length horiz hx hy hin
    simp only [dxOf, dyOf] at hnot
    have htry : b.try_word word x y horiz =
        some (Except.ok (used_spec b.horizontal word x y (dxOf horiz) (dyOf horiz))) := by
      simp only [BoardM.try_word]
      rw [if_neg hnot]
      exact try_word_go_ok b.horizontal hwf (dxOf horiz) (dyOf horiz) word x y hin hag
    simp only [BoardM.play_word, htry]

/-- C6 counterexample: on a fresh board, a 1-letter horizontal word
"played" at `(x, y) = (0, 15)` starts off the board, yet passes the
overrun check (`15 + 1*0 > 15` is false).  Rust then indexes
`self.horizontal[15]` and panics (modelled by `none`) instead of
returning the `TilePlacementError` the claim promises. -/
theorem C6_counterexample :
    (BoardM.new [] wl_empty).play_word [1] 0 15 true true = none ∧
    (BoardM.new [] wl_empty).play_word [1] 0 15 true true ≠
      some (Except.error (ErrM.tilePlacement 0 15 true 1), BoardM.new [] wl_empty) := by
  decide

theorem C6_play_word_witness :
    (BoardM.new [] wl_empty).play_word [1, 2, 3, 4] 12 7 true true =
      some (Except.error (ErrM.tilePlacement 12 7 true 4), BoardM.new [] wl_empty) :=
  (C6_play_word (BoardM.new [] wl_empty) [1, 2, 3, 4] 12 7 true true
    (by decide) (by decide) (by decide)).1 (by decide)

/- ---------------------------------------------------------------------
C3: the closed-form score of `calc_word_points` with crossing words.
The spec-side formula: letter points with letter bonuses on newly placed
squares only, summed; times the product of the word bonuses on newly
placed squares; plus the crossing-word scores of the newly placed tiles;
plus the 40-point bingo for 7 or more newly placed tiles.  A tile on an
already occupied square contributes its plain points and no premium.
--------------------------------------------------------------------- -/

/-- The square at `(x, y)` receives a new tile (it is empty). -/
def new_at (b : BoardM) (x y : Nat) : Bool := !(cellAt b.horizontal y x).isSome

/-- Letter points of one tile: the letter bonus applies only on a newly
placed square; an occupied square always gives the plain points. -/
def letter_contrib (b : BoardM) (t x y : Nat) : Nat :=
  if (cellAt b.horizontal y x).isSome then tile_points b.tiles t
  else match (b.grid.getD y []).getD x GridCell.noBonus with
    | GridCell.letterBonus n => n * tile_points b.tiles t
    | _ => tile_points b.tiles t

/-- Word-bonus factor of one square: only a newly placed square
contributes its word bonus; everything else counts 1. -/
def word_factor (b : BoardM) (x y : Nat) : Nat :=
  if (cellAt b.horizontal y x).isSome then 1
  else match (b.grid.getD y []).getD x GridCell.noBonus with
    | GridCell.wordBonus n => n
    | _ => 1

/-- Sum of the per-square letter points over the word. -/
def base_sum (b : BoardM) : List Nat → Nat → Nat → Nat → Nat → Nat
  | [], _, _, _, _ => 0
  | t :: rest, x, y, dx, dy => letter_contrib b t x y + base_sum b rest (x + dx) (y + dy) dx dy

/-- Product of the per-square word-bonus factors over the word. -/
def word_mult (b : BoardM) : List Nat → Nat → Nat → Nat → Nat → Nat
  | [], _, _, _, _ => 1
  | _ :: rest, x, y, dx, dy => word_factor b x y * word_mult b rest (x + dx) (y + dy) dx dy

/-- The number of newly placed tiles of the word. -/
def new_count (b : BoardM) : List Nat → Nat → Nat → Nat → Nat → Nat
  | [], _, _, _, _ => 0
  | _ :: rest, x, y, dx, dy =>
    (if new_at b x y then 1 else 0) + new_count b rest (x + dx) (y + dy) dx dy

/-- Sum of the crossing contributions of the newly placed tiles. -/
def cross_sum (b : BoardM) (crossF : Nat → Nat → Nat → Nat) :
    List Nat → Nat → Nat → Nat → Nat → Nat
  | [], _, _, _, _ => 0
  | t :: rest, x, y, dx, dy =>
    (if new_at b x y then crossF x y t else 0) + cross_sum b crossF rest (x + dx) (y + dy) dx dy

theorem scan_word_spec (b : BoardM) (crossF : Nat → Nat → Nat → Nat) (dx dy : Nat) :
    ∀ (word : List Nat) (x y : Nat),
      scan_word b crossF word x y dx dy =
        { word_points := base_sum b word x y dx dy,
          mult := word_mult b word x y dx dy,
          tiles_used := new_count b word x y dx dy,
          cross := cross_sum b crossF word x y dx dy } := by
  intro word
  induction word with
  | nil =>
    intro x y
    rfl
  | cons t rest ih =>
    intro x y
    simp only [scan_word, ih, base_sum, word_mult, new_count, cross_sum]
    unfold letter_contrib word_factor new_at
    cases hocc : (cellAt b.horizontal y x).isSome with
    | true =>
      simp only [eq_self_iff_true, if_true, Bool.not_true, Bool.false_eq_true, if_false]
      congr 1
      all_goals first | omega | ring
    | false =>
      simp only [Bool.false_eq_true, if_false, Bool.not_false, eq_self_iff_true, if_true]
      cases hg : (b.grid.getD y []).getD x GridCell.noBonus <;>
        simp only [ScanAcc.mk.injEq] <;>
        refine ⟨?_, ?_, ?_, ?_⟩ <;>
        first | omega | ring

theorem calc_word_points_unchecked_spec (b : BoardM) (word : List Nat) (x y : Nat)
    (horiz : Bool) :
    calc_word_points_unchecked b word x y horiz true =
      base_sum b word x y (dxOf horiz) (dyOf horiz) *
          word_mult b word x y (dxOf horiz) (dyOf horiz) +
        cross_sum b (cross_contrib b horiz) word x y (dxOf horiz) (dyOf horiz) +
        (if 7 ≤ new_count b word x y (dxOf horiz) (dyOf horiz) then 40 else 0) := by
  show calc_total b (cross_contrib b horiz) word x y horiz = _
  simp only [calc_total]
  rw [show (if horiz then (1 : Nat) else 0) = dxOf horiz from rfl,
    show (if horiz then (0 : Nat) else 1) = dyOf horiz from rfl,
    scan_word_spec b (cross_contrib b horiz) (dxOf horiz) (dyOf horiz) word x y]
  ring

/-- C3.  For a word placement that fits on the board, `calc_word_points`
with `include_crossing_words = true` returns the base score — letter
points with letter bonuses applied only on newly placed squares, summed,
times the product of the word bonuses on newly placed squares — plus the
crossing-word contribution of every newly placed tile (`cross_contrib`:
the run through the cell scored with `include_crossing_words = false`
when it is longer than 1, else 0), plus exactly 40 if and only if at
least 7 tiles are newly placed.  Tiles on already occupied squares
contribute plain letter points and no premium (`letter_contrib`,
`word_factor`, and the crossing sum all ignore occupied squares). -/
theorem C3_word_points (b : BoardM) (word : List Nat) (x y : Nat) (horiz : Bool)
    (hfit : ¬(15 < x + word.length * dxOf horiz ∨ 15 < y + word.length * dyOf horiz)) :
    calc_word_points b word x y horiz true =
      Except.ok (base_sum b word x y (dxOf horiz) (dyOf horiz) *
            word_mult b word x y (dxOf horiz) (dyOf horiz) +
          cross_sum b (cross_contrib b horiz) word x y (dxOf horiz) (dyOf horiz) +
          (if 7 ≤ new_count b word x y (dxOf horiz) (dyOf horiz) then 40 else 0)) := by
  simp only [dxOf, dyOf] at hfit
  unfold calc_word_points
  rw [if_neg hfit, calc_word_points_unchecked_spec]

theorem C3_word_points_witness :
    calc_word_points (BoardM.new [(0, 0), (7, 1), (7, 2)] wl_empty) [1, 2] 7 7 true true =
      Except.ok (base_sum (BoardM.new [(0, 0), (7, 1), (7, 2)] wl_empty) [1, 2] 7 7 1 0 *
            word_mult (BoardM.new [(0, 0), (7, 1), (7, 2)] wl_empty) [1, 2] 7 7 1 0 +
          cross_sum (BoardM.new [(0, 0), (7, 1), (7, 2)] wl_empty)
            (cross_contrib (BoardM.new [(0, 0), (7, 1), (7, 2)] wl_empty) true) [1, 2] 7 7 1 0 +
          (if 7 ≤ new_count (BoardM.new [(0, 0), (7, 1), (7, 2)] wl_empty) [1, 2] 7 7 1 0
            then 40 else 0)) :=
  C3_word_points (BoardM.new [(0, 0), (7, 1), (7, 2)] wl_empty) [1, 2] 7 7 true (by decide)

/- ---------------------------------------------------------------------
C7: the endgame branch of `evaluate_opponent_scores`.
--------------------------------------------------------------------- -/

/-- The number of letters a reply draws from the rack, checked with
`try_word` (no mutation); `none` when the reply does not place. -/
def used_len (b : BoardM) (s : ScoreM) : Option Nat :=
  match b.try_word s.word s.x s.y s.horizontal with
  | some (Except.ok played) => some played.length
  | _ => none

/-- A reply's endgame value: its word score, plus `our_tile_score`
exactly when it uses the opponent's whole rack. -/
def reply_score (b : BoardM) (nl ots : Nat) (s : ScoreM) : Nat :=
  if used_len b s = some nl then s.score + ots else s.score

/-- The maximum of a list of scores, at least 0. -/
def max_score (l : List Nat) : Nat := l.foldr max 0

theorem eval_opp_go_spec (b : BoardM) (nl ots : Nat) :
    ∀ (l : List ScoreM) (r : Nat) (ex : Bool),
      eval_opp_go b nl ots l = some (Except.ok (r, ex)) →
      r = max_score (l.map (reply_score b nl ots)) ∧
        (ex = true ↔ ∃ s ∈ l, used_len b s = some nl) := by
  intro l
  induction l with
  | nil =>
    intro r ex h
    simp only [eval_opp_go, Option.some.injEq, Except.ok.injEq, Prod.mk.injEq] at h
    obtain ⟨hr, hex⟩ := h
    subst hr
    subst hex
    simp [max_score]
  | cons s rest ih =>
    intro r ex h
    simp only [eval_opp_go] at h
    cases htw : b.try_word s.word s.x s.y s.horizontal with
    | none => simp [htw] at h
    | some res =>
      cases res with
      | error e => simp [htw] at h
      | ok played =>
        simp only [htw] at h
        cases hrec : eval_opp_go b nl ots rest with
        | none => simp [hrec] at h
        | some res2 =>
          cases res2 with
          | error e => simp [hrec] at h
          | ok p =>
            obtain ⟨m, exr⟩ := p
            simp only [hrec, Option.some.injEq, Except.ok.injEq, Prod.mk.injEq] at h
            obtain ⟨hr, hex⟩ := h
            obtain ⟨hm, hexr⟩ := ih m exr hrec
            constructor
            · rw [← hr, hm]
              simp only [List.map_cons, max_score, List.foldr_cons, reply_score,
                used_len, htw, Option.some.injEq]
            · rw [← hex]
              simp only [Bool.or_eq_true, decide_eq_true_eq, List.mem_cons]
              constructor
              · rintro (hpl | hexr')
                · exact ⟨s, Or.inl rfl, by simp [used_len, htw, hpl]⟩
                · obtain ⟨s', hs', hu⟩ := hexr.mp hexr'
                  exact ⟨s', Or.inr hs', hu⟩
              · rintro ⟨s', hs' | hs', hu⟩
                · subst hs'
                  left
                  simp only [used_len, htw, Option.some.injEq] at hu
                  exact hu
                · exact Or.inr (hexr.mpr ⟨s', hs', hu⟩)

/-- C7.  In endgame, whenever `evaluate_opponent_scores` returns
normally, the score is the maximum (at least 0, from the initial
`vec![0]`) over all replies of the reply's word score plus
`our_tile_score` exactly when the reply's letters used — determined by
`try_word`, which does not mutate the board — number the opponent's
whole rack; and the exit flag is set if and only if some reply uses the
whole rack.  (The whole-rack check compares letter COUNTS,
`played.len() == letters.len()`, exactly as the code does.) -/
theorem C7_endgame (b : BoardM) (letters : List Nat) (ots r : Nat) (ex : Bool)
    (h : evaluate_opponent_scores b letters ots true = some (Except.ok (r, ex))) :
    r = max_score ((calc_all_word_scores b letters).map
        (reply_score b letters.length ots)) ∧
      (ex = true ↔ ∃ s ∈ calc_all_word_scores b letters,
        used_len b s = some letters.length) := by
  simp only [evaluate_opponent_scores, if_true] at h
  exact eval_opp_go_spec b letters.length ots _ r ex h

/-- A tile table with `a` worth 0 points and 26 codes of 7 tiles, 1
point each (codes 1..26), giving a 182-tile bag plus two blanks. -/
def test_tiles : List (Nat × Nat) := (0, 0) :: List.replicate 26 (7, 1)

/-- A midgame test board over the `{"ab"}` lexicon: empty 15x15 state
with freshly computed rowdata. -/
def board_test : BoardM := (BoardM.new test_tiles wlAB).set_state state_empty

theorem C7_endgame_witness :
    7 = max_score ((calc_all_word_scores board_test [1, 2]).map
        (reply_score board_test 2 5)) ∧
      (true = true ↔ ∃ s ∈ calc_all_word_scores board_test [1, 2],
        used_len board_test s = some 2) :=
  C7_endgame board_test [1, 2] 5 7 true (by decide)

/-- C2.  The claim is refuted: in midgame `find_best_scores` takes
`&words[0..20]` from the sorted candidate list, so with fewer than 20
scored words the slice panics instead of evaluating
`min(20, number of words)` candidates and returning a result list.  On
`board_test` (empty board, lexicon `{"ab"}`, rack "ab") there are
exactly 4 scored words, the bag still holds 182 tiles (so the position
is midgame), and `find_best_scores` panics (`none`) instead of
returning normally. -/
theorem C2_find_best_panics :
    (calc_all_word_scores board_test [1, 2]).length = 4 ∧
    ¬(Multiset.card (remaining_tiles (tilebag_from_tileset test_tiles)
        board_test.horizontal [1, 2]) < 7) ∧
    find_best_scores board_test [1, 2] 1 (fun _ => []) = none := by
  decide

end Wordfeud
